import Mathlib

/-!
Verification development for the orange-dragonfly-validator engine.

The TypeScript sources are shallowly embedded as Lean definitions:

* JavaScript runtime values are modelled by the tree type `JVal`.  Numbers are
  modelled by `JNum` (a rational for every finite double, plus the three
  non-finite values); this is faithful for the operations the engine performs
  on numbers (ordering, finiteness and integrality tests).  Objects and
  arrays are modelled structurally, i.e. without reference identity; the
  separate heap model in namespace `HM` below recovers reference identity and
  in-place mutation for the frame/immutability analysis.
* Fallible code (`throw new ODVRulesException(...)`) is modelled with the
  result type `VRes`.
* The recursion of the schema walker into `children` schemas is modelled with
  a fuel parameter (`VRes.fuel` reports exhaustion); the per-level passes take
  the child processor as an explicit argument, exactly as the source threads
  the `processChildren` callback.
* Human-readable `message` strings are a derived view (`DEFAULT_MESSAGES`, or
  a caller-supplied formatter, applied to `code` and `params`); error entries
  are therefore modelled as code plus params only.
* JavaScript `RegExp` matching is treated as an opaque total predicate on
  strings; no property under scrutiny depends on the semantics of a concrete
  regular expression.
-/

set_option maxHeartbeats 1600000

namespace ODV

/-- A JavaScript number: NaN, the two infinities, or a finite value
(modelled as a rational; every finite IEEE double is a rational and the
engine only compares, orders and integrality-tests numbers). -/
inductive JNum : Type where
  | nan : JNum
  | inf : JNum
  | ninf : JNum
  | fin : ℚ → JNum
deriving DecidableEq, Repr

/-- A JavaScript runtime value as seen by the validator: primitives,
functions (opaque), arrays and plain objects (ordered own-key lists,
mirroring JS insertion order). -/
inductive JVal : Type where
  | jnum : JNum → JVal
  | jstr : String → JVal
  | jbool : Bool → JVal
  | jnull : JVal
  | jfun : JVal
  | jobj : List (String × JVal) → JVal
  | jarr : List JVal → JVal
deriving Repr

mutual

/-- Structural (boolean) equality on `JVal`. -/
def JVal.beq : JVal → JVal → Bool
  | .jnum a, .jnum b => a = b
  | .jstr a, .jstr b => a = b
  | .jbool a, .jbool b => a = b
  | .jnull, .jnull => true
  | .jfun, .jfun => true
  | .jobj a, .jobj b => JVal.beqFields a b
  | .jarr a, .jarr b => JVal.beqElems a b
  | _, _ => false

/-- Structural equality on object field lists. -/
def JVal.beqFields : List (String × JVal) → List (String × JVal) → Bool
  | [], [] => true
  | (k, v) :: r, (k', v') :: r' => k = k' && JVal.beq v v' && JVal.beqFields r r'
  | _, _ => false

/-- Structural equality on array element lists. -/
def JVal.beqElems : List JVal → List JVal → Bool
  | [], [] => true
  | v :: r, v' :: r' => JVal.beq v v' && JVal.beqElems r r'
  | _, _ => false

end

mutual

theorem JVal.beq_iff : ∀ a b : JVal, JVal.beq a b = true ↔ a = b
  | .jnum a, .jnum b => by
      simp only [JVal.beq, decide_eq_true_eq, JVal.jnum.injEq]
  | .jstr a, .jstr b => by
      simp only [JVal.beq, decide_eq_true_eq, JVal.jstr.injEq]
  | .jbool a, .jbool b => by
      simp only [JVal.beq, decide_eq_true_eq, JVal.jbool.injEq]
  | .jnull, .jnull => by simp [JVal.beq]
  | .jfun, .jfun => by simp [JVal.beq]
  | .jobj a, .jobj b => by
      simp only [JVal.beq, JVal.jobj.injEq]
      exact JVal.beqFields_iff a b
  | .jarr a, .jarr b => by
      simp only [JVal.beq, JVal.jarr.injEq]
      exact JVal.beqElems_iff a b
  | .jnum _, .jstr _ => by simp [JVal.beq]
  | .jnum _, .jbool _ => by simp [JVal.beq]
  | .jnum _, .jnull => by simp [JVal.beq]
  | .jnum _, .jfun => by simp [JVal.beq]
  | .jnum _, .jobj _ => by simp [JVal.beq]
  | .jnum _, .jarr _ => by simp [JVal.beq]
  | .jstr _, .jnum _ => by simp [JVal.beq]
  | .jstr _, .jbool _ => by simp [JVal.beq]
  | .jstr _, .jnull => by simp [JVal.beq]
  | .jstr _, .jfun => by simp [JVal.beq]
  | .jstr _, .jobj _ => by simp [JVal.beq]
  | .jstr _, .jarr _ => by simp [JVal.beq]
  | .jbool _, .jnum _ => by simp [JVal.beq]
  | .jbool _, .jstr _ => by simp [JVal.beq]
  | .jbool _, .jnull => by simp [JVal.beq]
  | .jbool _, .jfun => by simp [JVal.beq]
  | .jbool _, .jobj _ => by simp [JVal.beq]
  | .jbool _, .jarr _ => by simp [JVal.beq]
  | .jnull, .jnum _ => by simp [JVal.beq]
  | .jnull, .jstr _ => by simp [JVal.beq]
  | .jnull, .jbool _ => by simp [JVal.beq]
  | .jnull, .jfun => by simp [JVal.beq]
  | .jnull, .jobj _ => by simp [JVal.beq]
  | .jnull, .jarr _ => by simp [JVal.beq]
  | .jfun, .jnum _ => by simp [JVal.beq]
  | .jfun, .jstr _ => by simp [JVal.beq]
  | .jfun, .jbool _ => by simp [JVal.beq]
  | .jfun, .jnull => by simp [JVal.beq]
  | .jfun, .jobj _ => by simp [JVal.beq]
  | .jfun, .jarr _ => by simp [JVal.beq]
  | .jobj _, .jnum _ => by simp [JVal.beq]
  | .jobj _, .jstr _ => by simp [JVal.beq]
  | .jobj _, .jbool _ => by simp [JVal.beq]
  | .jobj _, .jnull => by simp [JVal.beq]
  | .jobj _, .jfun => by simp [JVal.beq]
  | .jobj _, .jarr _ => by simp [JVal.beq]
  | .jarr _, .jnum _ => by simp [JVal.beq]
  | .jarr _, .jstr _ => by simp [JVal.beq]
  | .jarr _, .jbool _ => by simp [JVal.beq]
  | .jarr _, .jnull => by simp [JVal.beq]
  | .jarr _, .jfun => by simp [JVal.beq]
  | .jarr _, .jobj _ => by simp [JVal.beq]

theorem JVal.beqFields_iff : ∀ a b : List (String × JVal),
    JVal.beqFields a b = true ↔ a = b
  | [], [] => by simp [JVal.beqFields]
  | (k, v) :: r, (k', v') :: r' => by
      simp only [JVal.beqFields, Bool.and_eq_true, decide_eq_true_eq,
        List.cons.injEq, Prod.mk.injEq]
      rw [JVal.beq_iff v v', JVal.beqFields_iff r r']
  | [], _ :: _ => by simp [JVal.beqFields]
  | _ :: _, [] => by simp [JVal.beqFields]

theorem JVal.beqElems_iff : ∀ a b : List JVal,
    JVal.beqElems a b = true ↔ a = b
  | [], [] => by simp [JVal.beqElems]
  | v :: r, v' :: r' => by
      simp only [JVal.beqElems, Bool.and_eq_true, List.cons.injEq]
      rw [JVal.beq_iff v v', JVal.beqElems_iff r r']
  | [], _ :: _ => by simp [JVal.beqElems]
  | _ :: _, [] => by simp [JVal.beqElems]

end

instance : DecidableEq JVal := fun a b =>
  decidable_of_iff (JVal.beq a b = true) (JVal.beq_iff a b)

/-- The closed ODVValueType enumeration from `types.ts`. -/
inductive VT : Type where
  | string | number | integer | array | object | boolean | nullt | func
deriving DecidableEq, Repr

/-- Name of a value type as used in schemas and error params. -/
def vtName : VT → String
  | .string => "string"
  | .number => "number"
  | .integer => "integer"
  | .array => "array"
  | .object => "object"
  | .boolean => "boolean"
  | .nullt => "null"
  | .func => "function"

/-- `getValueType` from `rule.ts`: the ODV value type of a value, or `none`
for non-finite numbers (`Number.isFinite` fails, so NaN and the infinities
map to no type). -/
def getValueType : JVal → Option VT
  | .jarr _ => some .array
  | .jnull => some .nullt
  | .jobj _ => some .object
  | .jnum (.fin q) => some (if q.den = 1 then .integer else .number)
  | .jnum _ => none
  | .jstr _ => some .string
  | .jbool _ => some .boolean
  | .jfun => some .func

/-- `getValueForMinOrMax` from `rule.ts`: element count for arrays, character
count for strings, the number itself for numbers/integers, `null` otherwise. -/
def getValueForMinOrMax : JVal → VT → Option ℚ
  | .jarr xs, .array => some (xs.length : ℚ)
  | .jstr s, .string => some (s.length : ℚ)
  | .jnum (.fin q), .number => some q
  | .jnum (.fin q), .integer => some q
  | _, _ => none

/-- JavaScript `SameValueZero`, the equality used by `Array.prototype.includes`.
Primitives compare by value (NaN equals NaN); objects, arrays and functions
compare by reference, and in this structural model two such values drawn from
the schema's `in` list and the input never share a reference, so the
comparison is `false`. -/
def jsSameValueZero : JVal → JVal → Bool
  | .jnum a, .jnum b =>
      match a, b with
      | .nan, .nan => true
      | .inf, .inf => true
      | .ninf, .ninf => true
      | .fin p, .fin q => p = q
      | _, _ => false
  | .jstr a, .jstr b => a = b
  | .jbool a, .jbool b => a = b
  | .jnull, .jnull => true
  | _, _ => false

/-- `list.includes(v)` with `SameValueZero` element comparison. -/
def jsIncludes (l : List JVal) (v : JVal) : Bool :=
  l.any (fun x => jsSameValueZero x v)

/-- `isSafeKey` from `sanitize.ts`: the prototype-pollution denylist. -/
def isSafeKey (key : String) : Bool :=
  ¬ (key = "__proto__" ∨ key = "constructor" ∨ key = "prototype")

/-- The `type` attribute of a rule as written by a caller: `null`, a single
type-name string, or an array of type-name strings (absence is modelled by
`Option` at the use site). -/
inductive TypeF : Type where
  | nullT : TypeF
  | one : String → TypeF
  | many : List String → TypeF
deriving DecidableEq, Repr

/-- The `in:public` attribute: a boolean or an array of values.  JS
truthiness: `false` is falsy, `true` and every array (even an empty one)
are truthy. -/
inductive InPub : Type where
  | bool : Bool → InPub
  | list : List JVal → InPub
deriving DecidableEq, Repr

/-- A `pattern` attribute: a pattern source string (compiled on demand and
memoized by the module-level pattern cache, which is semantically
transparent), or a `RegExp` object modelled as an opaque total predicate on
strings. -/
inductive PatternV : Type where
  | str : String → PatternV
  | re : (String → Bool) → PatternV

/-- One rule (`ODVRuleSchema` from `infer.ts`).  Fields follow the interface:
`in`, `in:public`, `min`, `max`, `pattern`, `special`, `transform`,
`apply_transformed`, `children`, then `type`, `required`, `default`,
`per_type`.  `children` is a nested rules schema — a list of named entries
plus the optional `@` options object (itself with an optional `strict`
flag); `per_type` entries are full rules (the engine reads only the
per-type-relevant attributes of an overlay, and `normalizeRule` recurses
into overlays exactly as into rules).  The transform callback is a caller
function value, opaque to the engine; it is modelled as a pure value
transformer. -/
inductive Rule : Type where
  | mk :
      (inList : Option (List JVal)) →
      (inPublic : Option InPub) →
      (min : Option ℚ) →
      (max : Option ℚ) →
      (pattern : Option PatternV) →
      (special : Option String) →
      (transform : Option (JVal → JVal)) →
      (applyTransformed : Option Bool) →
      (children : Option (List (String × Rule) × Option (Option Bool))) →
      (type : Option TypeF) →
      (required : Option Bool) →
      (dflt : Option JVal) →
      (perType : List (String × Rule)) →
      Rule

/-- A rules schema (`ODVRulesSchema`): the ordered named entries (including
the `#` key-name rule and the `*` wildcard rule under their literal keys,
preserving JS object insertion order) together with the `@` options
meta-key, modelled as `Option (Option Bool)`: `none` when `@` is absent,
`some none` when `@` is present without `strict`, `some (some b)` when
`@.strict` is `b`. -/
abbrev Schema : Type := List (String × Rule) × Option (Option Bool)

namespace Rule

def inList : Rule → Option (List JVal)
  | .mk i _ _ _ _ _ _ _ _ _ _ _ _ => i

def inPublic : Rule → Option InPub
  | .mk _ p _ _ _ _ _ _ _ _ _ _ _ => p

def min : Rule → Option ℚ
  | .mk _ _ m _ _ _ _ _ _ _ _ _ _ => m

def max : Rule → Option ℚ
  | .mk _ _ _ m _ _ _ _ _ _ _ _ _ => m

def pattern : Rule → Option PatternV
  | .mk _ _ _ _ p _ _ _ _ _ _ _ _ => p

def special : Rule → Option String
  | .mk _ _ _ _ _ s _ _ _ _ _ _ _ => s

def transform : Rule → Option (JVal → JVal)
  | .mk _ _ _ _ _ _ t _ _ _ _ _ _ => t

def applyTransformed : Rule → Option Bool
  | .mk _ _ _ _ _ _ _ a _ _ _ _ _ => a

def children : Rule → Option Schema
  | .mk _ _ _ _ _ _ _ _ c _ _ _ _ => c

def type : Rule → Option TypeF
  | .mk _ _ _ _ _ _ _ _ _ t _ _ _ => t

def required : Rule → Option Bool
  | .mk _ _ _ _ _ _ _ _ _ _ r _ _ => r

def dflt : Rule → Option JVal
  | .mk _ _ _ _ _ _ _ _ _ _ _ d _ => d

def perType : Rule → List (String × Rule)
  | .mk _ _ _ _ _ _ _ _ _ _ _ _ p => p

/-- The rule with every attribute absent. -/
def empty : Rule := .mk none none none none none none none none none none none none []

def withType (t : TypeF) : Rule → Rule
  | .mk i p mn mx pa sp tr ap ch _ rq df pt => .mk i p mn mx pa sp tr ap ch (some t) rq df pt

def withIn (l : List JVal) : Rule → Rule
  | .mk _ p mn mx pa sp tr ap ch t rq df pt => .mk (some l) p mn mx pa sp tr ap ch t rq df pt

def withInPublic (v : InPub) : Rule → Rule
  | .mk i _ mn mx pa sp tr ap ch t rq df pt => .mk i (some v) mn mx pa sp tr ap ch t rq df pt

def withMin (m : ℚ) : Rule → Rule
  | .mk i p _ mx pa sp tr ap ch t rq df pt => .mk i p (some m) mx pa sp tr ap ch t rq df pt

def withMax (m : ℚ) : Rule → Rule
  | .mk i p mn _ pa sp tr ap ch t rq df pt => .mk i p mn (some m) pa sp tr ap ch t rq df pt

def withPattern (pv : PatternV) : Rule → Rule
  | .mk i p mn mx _ sp tr ap ch t rq df pt => .mk i p mn mx (some pv) sp tr ap ch t rq df pt

def withSpecial (s : String) : Rule → Rule
  | .mk i p mn mx pa _ tr ap ch t rq df pt => .mk i p mn mx pa (some s) tr ap ch t rq df pt

def withTransform (f : JVal → JVal) : Rule → Rule
  | .mk i p mn mx pa sp _ ap ch t rq df pt => .mk i p mn mx pa sp (some f) ap ch t rq df pt

def withApplyTransformed (b : Bool) : Rule → Rule
  | .mk i p mn mx pa sp tr _ ch t rq df pt => .mk i p mn mx pa sp tr (some b) ch t rq df pt

def withChildren (s : Schema) : Rule → Rule
  | .mk i p mn mx pa sp tr ap _ t rq df pt => .mk i p mn mx pa sp tr ap (some s) t rq df pt

def withRequired (b : Bool) : Rule → Rule
  | .mk i p mn mx pa sp tr ap ch t _ df pt => .mk i p mn mx pa sp tr ap ch t (some b) df pt

def withDefault (v : JVal) : Rule → Rule
  | .mk i p mn mx pa sp tr ap ch t rq _ pt => .mk i p mn mx pa sp tr ap ch t rq (some v) pt

def withPerType (pt : List (String × Rule)) : Rule → Rule
  | .mk i p mn mx pa sp tr ap ch t rq df _ => .mk i p mn mx pa sp tr ap ch t rq df pt

end Rule

/-- The `type`-attribute rewrite of `normalizeRule` in `rules.ts`:
`rule.type = rule.type ? (typeof rule.type !== 'object' ? [rule.type] : rule.type) : null`,
then `'integer'` is pushed when the array contains `'number'` without
`'integer'`.  A falsy `type` (JS `null`, or the empty string) becomes `null`;
a bare (non-empty) string becomes a one-element array; an absent attribute
stays absent. -/
def normalizeType : Option TypeF → Option TypeF
  | none => none
  | some .nullT => some .nullT
  | some (.one s) =>
      if s = "" then some .nullT
      else some (.many (if s = "number" then ["number", "integer"] else [s]))
  | some (.many ts) =>
      some (.many (if ts.contains "number" && !(ts.contains "integer") then ts ++ ["integer"] else ts))

mutual

/-- `normalizeRule` from `rules.ts`: rewrites the `type` attribute and
recurses into every `per_type` overlay and into `children`. -/
def normalizeRule : Rule → Rule
  | .mk i p mn mx pa sp tr ap ch t rq df pt =>
      .mk i p mn mx pa sp tr ap (normalizeChildren ch) (normalizeType t) rq df (normalizeEntries pt)

/-- Recursion of `normalizeRule` into an optional `children` schema
(`normalizeSchema` skips the `@` meta-key, so the options part is untouched). -/
def normalizeChildren : Option Schema → Option Schema
  | none => none
  | some (es, o) => some (normalizeEntries es, o)

/-- Normalization of every rule of an entry list (named fields as well as the
`#` and `*` meta-rules). -/
def normalizeEntries : List (String × Rule) → List (String × Rule)
  | [] => []
  | (k, r) :: rest => (k, normalizeRule r) :: normalizeEntries rest

end

/-- `normalizeSchema` from `rules.ts`: normalizes every non-`@` entry. -/
def normalizeSchema (s : Schema) : Schema :=
  (normalizeEntries s.1, s.2)

mutual

/-- `deepCloneRuleDef` from `clone.ts`.  In this structural model the spread
copy of scalar attributes, the element-wise copies of `type` / `in` /
`in:public` arrays and the `clonePattern` rebuild (a fresh `RegExp` with the
same source and flags, i.e. the same match predicate; function values are
preserved by reference) all coincide with reusing the attribute values;
the recursion into `per_type` (`deepClonePerTypeRuleDef`, whose spread
likewise copies every attribute) and `children` is kept explicitly. -/
def deepCloneRuleDef : Rule → Rule
  | .mk i p mn mx pa sp tr ap ch t rq df pt =>
      .mk i p mn mx pa sp tr ap (deepCloneChildren ch) t rq df (deepCloneEntries pt)

/-- Recursion of the deep clone into an optional nested schema. -/
def deepCloneChildren : Option Schema → Option Schema
  | none => none
  | some (es, o) => some (deepCloneEntries es, o)

/-- `deepCloneSchema` applied to an entry list: every rule is deep-cloned
(the `@` options object is shallow-copied, which the `Option (Option Bool)`
model reuses unchanged). -/
def deepCloneEntries : List (String × Rule) → List (String × Rule)
  | [] => []
  | (k, r) :: rest => (k, deepCloneRuleDef r) :: deepCloneEntries rest

end

/-- `deepCloneSchema` from `clone.ts`. -/
def deepCloneSchema (s : Schema) : Schema :=
  (deepCloneEntries s.1, s.2)

/-- `ODVRules.normalize` from `rules.ts`: deep-clone, then rewrite the clone. -/
def rulesNormalize (s : Schema) : Schema :=
  normalizeSchema (deepCloneSchema s)

mutual

theorem deepCloneRuleDef_id : ∀ r : Rule, deepCloneRuleDef r = r
  | .mk i p mn mx pa sp tr ap ch t rq df pt => by
      rw [deepCloneRuleDef, deepCloneChildren_id ch, deepCloneEntries_id pt]

theorem deepCloneChildren_id : ∀ o : Option Schema, deepCloneChildren o = o
  | none => by rw [deepCloneChildren]
  | some (es, o) => by rw [deepCloneChildren, deepCloneEntries_id es]

theorem deepCloneEntries_id : ∀ l : List (String × Rule), deepCloneEntries l = l
  | [] => by rw [deepCloneEntries]
  | (k, r) :: rest => by
      rw [deepCloneEntries, deepCloneRuleDef_id r, deepCloneEntries_id rest]

end

/-- In the structural model the deep clone is the identity (no sharing to
sever); `ODVRules.normalize` therefore coincides with `normalizeSchema`. -/
theorem rulesNormalize_eq_normalizeSchema (s : Schema) :
    rulesNormalize s = normalizeSchema s := by
  unfold rulesNormalize deepCloneSchema
  rw [deepCloneEntries_id]

/-- Whether a `type` attribute is in normalized form: absent, `null`, or an
array that contains `'integer'` whenever it contains `'number'`. -/
def isNormalizedType : Option TypeF → Bool
  | none => true
  | some .nullT => true
  | some (.one _) => false
  | some (.many ts) => !(ts.contains "number") || ts.contains "integer"

mutual

/-- Whether a rule is fully normalized, recursively through `children` and
`per_type`. -/
def isNormalizedRule : Rule → Bool
  | .mk _ _ _ _ _ _ _ _ ch t _ _ pt =>
      isNormalizedType t && isNormalizedChildren ch && isNormalizedEntries pt

def isNormalizedChildren : Option Schema → Bool
  | none => true
  | some (es, _) => isNormalizedEntries es

def isNormalizedEntries : List (String × Rule) → Bool
  | [] => true
  | (_, r) :: rest => isNormalizedRule r && isNormalizedEntries rest

end

/-- Whether every rule of a schema is normalized. -/
def isNormalizedSchema (s : Schema) : Bool :=
  isNormalizedEntries s.1

theorem isNormalizedType_normalizeType (t : Option TypeF) :
    isNormalizedType (normalizeType t) = true := by
  match t with
  | none => rfl
  | some .nullT => rfl
  | some (.one s) =>
      by_cases h : s = ""
      · simp [normalizeType, h, isNormalizedType]
      · by_cases h2 : s = "number"
        · simp [normalizeType, h, h2, isNormalizedType]
        · simp only [normalizeType, if_neg h, if_neg h2, isNormalizedType,
            Bool.or_eq_true, Bool.not_eq_true']
          left
          rw [Bool.eq_false_iff]
          intro hc
          simp only [List.contains_cons, List.contains_nil, Bool.or_false,
            beq_iff_eq] at hc
          exact h2 hc.symm
  | some (.many ts) =>
      cases hn : ts.contains "number" <;> cases hi : ts.contains "integer" <;>
        simp at hn hi <;>
        simp [normalizeType, isNormalizedType, hn, hi]

theorem normalizeType_of_isNormalized (t : Option TypeF)
    (h : isNormalizedType t = true) : normalizeType t = t := by
  match t with
  | none => rfl
  | some .nullT => rfl
  | some (.one s) => simp [isNormalizedType] at h
  | some (.many ts) =>
      simp only [isNormalizedType, Bool.or_eq_true, Bool.not_eq_true'] at h
      rcases h with h | h <;> simp at h <;> simp [normalizeType, h]

mutual

theorem isNormalizedRule_normalizeRule : ∀ r : Rule,
    isNormalizedRule (normalizeRule r) = true
  | .mk i p mn mx pa sp tr ap ch t rq df pt => by
      rw [normalizeRule, isNormalizedRule, isNormalizedType_normalizeType,
        isNormalizedChildren_normalizeChildren ch, isNormalizedEntries_normalizeEntries pt]
      rfl

theorem isNormalizedChildren_normalizeChildren : ∀ o : Option Schema,
    isNormalizedChildren (normalizeChildren o) = true
  | none => by rw [normalizeChildren, isNormalizedChildren]
  | some (es, o) => by
      rw [normalizeChildren, isNormalizedChildren, isNormalizedEntries_normalizeEntries es]

theorem isNormalizedEntries_normalizeEntries : ∀ l : List (String × Rule),
    isNormalizedEntries (normalizeEntries l) = true
  | [] => by rw [normalizeEntries, isNormalizedEntries]
  | (k, r) :: rest => by
      rw [normalizeEntries, isNormalizedEntries, isNormalizedRule_normalizeRule r,
        isNormalizedEntries_normalizeEntries rest]
      rfl

end

mutual

theorem normalizeRule_of_isNormalized : ∀ r : Rule,
    isNormalizedRule r = true → normalizeRule r = r
  | .mk i p mn mx pa sp tr ap ch t rq df pt => by
      rw [isNormalizedRule, Bool.and_eq_true, Bool.and_eq_true]
      intro h
      rw [normalizeRule, normalizeType_of_isNormalized t h.1.1,
        normalizeChildren_of_isNormalized ch h.1.2,
        normalizeEntries_of_isNormalized pt h.2]

theorem normalizeChildren_of_isNormalized : ∀ o : Option Schema,
    isNormalizedChildren o = true → normalizeChildren o = o
  | none => by intro h; rw [normalizeChildren]
  | some (es, o) => by
      rw [isNormalizedChildren]
      intro h
      rw [normalizeChildren, normalizeEntries_of_isNormalized es h]

theorem normalizeEntries_of_isNormalized : ∀ l : List (String × Rule),
    isNormalizedEntries l = true → normalizeEntries l = l
  | [] => by intro h; rw [normalizeEntries]
  | (k, r) :: rest => by
      rw [isNormalizedEntries, Bool.and_eq_true]
      intro h
      rw [normalizeEntries, normalizeRule_of_isNormalized r h.1,
        normalizeEntries_of_isNormalized rest h.2]

end

theorem normalizeSchema_idem (s : Schema) :
    normalizeSchema (normalizeSchema s) = normalizeSchema s := by
  unfold normalizeSchema
  rw [normalizeEntries_of_isNormalized _ (isNormalizedEntries_normalizeEntries s.1)]

/-- The closed error-code taxonomy from `error-codes.ts`. -/
inductive ECode : Type where
  | REQUIRED | NOT_ALLOWED | TYPE_MISMATCH | MIN_VIOLATION | MAX_VIOLATION
  | PATTERN_MISMATCH | INVALID_FORMAT | VALUE_NOT_IN_LIST
  | ARRAY_ELEMENT_NOT_IN_LIST | CHILDREN_TYPE_ERROR
  | MIN_MAX_NOT_APPLICABLE | IN_NOT_APPLICABLE
deriving DecidableEq, Repr

/-- One recorded error: the error-map key it is filed under, the code, and
the contextual params (the `message` string is the derived
`DEFAULT_MESSAGES[code](params)` rendering, or the caller formatter's, and
is not modelled).  A param whose JS value would be `undefined` (the `allowed`
param when `in:public` is falsy) is omitted from the list. -/
structure ErrItem : Type where
  key : String
  code : ECode
  params : List (String × JVal)
deriving DecidableEq, Repr

/-- Result of an engine computation: normal completion, a thrown
`ODVException` (validation of the data failed — only produced at the entry
points), a thrown `ODVRulesException` (the schema itself is invalid), or
fuel exhaustion of the model's schema-depth recursion. -/
inductive VRes (α : Type) : Type where
  | ok : α → VRes α
  | dataErr : List ErrItem → VRes α
  | rulesErr : List ErrItem → VRes α
  | fuel : VRes α
deriving DecidableEq, Repr

/-- `join(' or ')` over a type list, used for the `expected` param. -/
def joinOr : List String → String
  | [] => ""
  | [t] => t
  | t :: rest => t ++ " or " ++ joinOr rest

/-- The `def.type !== undefined && def.type !== null` guard of `applyRule`
together with the cast `(def.type as string[])`: the effective constraint
list, or `none` when there is no type constraint.  (A bare string only
occurs pre-normalization; `'x'.includes(t)` on the closed type-name alphabet
coincides with `['x'].includes(t)`, which is how it is modelled.) -/
def typeConstraint : Option TypeF → Option (List String)
  | none => none
  | some .nullT => none
  | some (.one s) => some [s]
  | some (.many ts) => some ts

/-- The tolerance condition of `checkMinMax` when no magnitude can be
derived: a rules error is thrown iff
`def.type === undefined || def.type === null || (def.type as string[]).length < 2`.
(On a pre-normalization bare string the source would read the string's
character count; every concrete type name has at least two characters, so
this is modelled as tolerated.) -/
def minMaxTolerated : Option TypeF → Bool
  | none => false
  | some .nullT => false
  | some (.one _) => true
  | some (.many ts) => decide (2 ≤ ts.length)

/-- `checkMinMax` from `rule.ts`.  `def` is passed for its `type` attribute
only (the tolerance condition reads the base rule, not the overlay). -/
def checkMinMax (value : JVal) (valueType : VT) (mn mx : Option ℚ)
    (defType : Option TypeF) (errorsKey : String) : VRes (List ErrItem) :=
  match getValueForMinOrMax value valueType with
  | some m =>
      .ok
        ((match mn with
          | some lo => if m < lo then
              [⟨errorsKey, .MIN_VIOLATION, [("min", .jnum (.fin lo)), ("actual", .jnum (.fin m))]⟩]
            else []
          | none => []) ++
         (match mx with
          | some hi => if hi < m then
              [⟨errorsKey, .MAX_VIOLATION, [("max", .jnum (.fin hi)), ("actual", .jnum (.fin m))]⟩]
            else []
          | none => []))
  | none =>
      if minMaxTolerated defType then .ok []
      else .rulesErr [⟨errorsKey, .MIN_MAX_NOT_APPLICABLE, [("actual", .jstr (vtName valueType))]⟩]

/-- The `allowed` param of the in-list errors:
`inPublic ? (inPublic === true ? [...inList] : [...inPublic]) : undefined`
(a JS array is truthy even when empty; `false` is falsy). -/
def allowedParams (inL : List JVal) : Option InPub → List (String × JVal)
  | some (.bool true) => [("allowed", .jarr inL)]
  | some (.bool false) => []
  | some (.list l) => [("allowed", .jarr l)]
  | none => []

/-- `checkInList` from `rule.ts`: a rules error for objects, an aggregate
element check for arrays, a membership check otherwise. -/
def checkInList (value : JVal) (valueType : VT) (inL : List JVal)
    (inPub : Option InPub) (errorsKey : String) : VRes (List ErrItem) :=
  if valueType = .object then
    .rulesErr [⟨errorsKey, .IN_NOT_APPLICABLE, []⟩]
  else if valueType = .array then
    .ok (match value with
      | .jarr xs =>
          if xs.any (fun v => !(jsIncludes inL v)) then
            [⟨errorsKey, .ARRAY_ELEMENT_NOT_IN_LIST, allowedParams inL inPub⟩]
          else []
      | _ => [])
  else
    .ok (if !(jsIncludes inL value) then
      [⟨errorsKey, .VALUE_NOT_IN_LIST, allowedParams inL inPub⟩]
    else [])

/-- `SPECIAL_MAX_LENGTHS` from `special-validators.ts`. -/
def SPECIAL_MAX_LENGTHS : String → Option Nat
  | "email" => some 4096
  | "phone" => some 16
  | "us-phone" => some 12
  | "url" => some 8192
  | "uuid" => some 36
  | "ipv4" => some 15
  | "date" => some 10
  | "datetime" => some 35
  | "hex-color" => some 9
  | _ => none

/-- Compilation of a pattern source string to a match predicate
(`new RegExp(pattern)` plus `RegExp.prototype.test`).  Regular-expression
matching semantics are opaque in this model: the engine only branches on the
Boolean outcome, and no property under scrutiny depends on which strings a
concrete pattern accepts.  The module-level `patternCache` memoizes this
compilation and is semantically transparent. -/
def compileRegex (_ : String) : String → Bool :=
  fun _ => true

/-- `SPECIAL_VALIDATORS` from `special-validators.ts`: the nine built-in
format names mapped to their (opaque) regular-expression predicates. -/
def SPECIAL_VALIDATORS : String → Option (String → Bool)
  | "email" => some (compileRegex "EMAIL_PATTERN")
  | "phone" => some (compileRegex "PHONE_PATTERN")
  | "us-phone" => some (compileRegex "US_PHONE_PATTERN")
  | "url" => some (compileRegex "URL_PATTERN")
  | "uuid" => some (compileRegex "UUID_PATTERN")
  | "ipv4" => some (compileRegex "IPV4_PATTERN")
  | "date" => some (compileRegex "DATE_PATTERN")
  | "datetime" => some (compileRegex "DATETIME_PATTERN")
  | "hex-color" => some (compileRegex "HEX_COLOR_PATTERN")
  | _ => none

/-- Match predicate of a `pattern` attribute. -/
def patternTest : PatternV → String → Bool
  | .str src => compileRegex src
  | .re f => f

/-- `checkPattern` from `rule.ts`: non-strings fail immediately with a single
`PATTERN_MISMATCH`; for strings, `special` first guards the input length for
the named format and then runs the format's pattern, and `pattern` is
matched afterwards. -/
def checkPattern (value : JVal) (valueType : VT) (pat : Option PatternV)
    (sp : Option String) (errorsKey : String) : VRes (List ErrItem) :=
  if valueType ≠ .string then
    .ok [⟨errorsKey, .PATTERN_MISMATCH, []⟩]
  else
    .ok (match value with
      | .jstr s =>
          (match sp with
           | some name =>
               (match SPECIAL_MAX_LENGTHS name with
                | some maxLen =>
                    if maxLen < s.length then
                      [⟨errorsKey, .INVALID_FORMAT, [("format", .jstr name)]⟩]
                    else
                      match SPECIAL_VALIDATORS name with
                      | some test =>
                          if !(test s) then
                            [⟨errorsKey, .INVALID_FORMAT, [("format", .jstr name)]⟩]
                          else []
                      | none => []
                | none =>
                    match SPECIAL_VALIDATORS name with
                    | some test =>
                        if !(test s) then
                          [⟨errorsKey, .INVALID_FORMAT, [("format", .jstr name)]⟩]
                        else []
                    | none => [])
           | none => []) ++
          (match pat with
           | some p => if !(patternTest p s) then [⟨errorsKey, .PATTERN_MISMATCH, []⟩] else []
           | none => [])
      | _ => [])

/-- The throw condition of `checkChildren` for a non-object, non-array value:
`def.type === undefined || !(def.type as string[]).filter(t => !['object','array'].includes(t)).length`,
i.e. the type constraint is absent or declares recursable types only.
(A `null` type attribute or a bare string would crash the source's `.filter`
call with a TypeError; both shapes are rejected by the schema bootstrap
before any rule runs, and the model treats `null` like `undefined` and a
bare string like its one-element array.) -/
def childrenThrowCond : Option TypeF → Bool
  | none => true
  | some .nullT => true
  | some (.one s) => decide (s = "object" ∨ s = "array")
  | some (.many ts) =>
      decide ((ts.filter (fun t => !(t = "object" ∨ t = "array" : Bool))).length = 0)

/-- `checkChildren` from `rule.ts`: recurse the schema walker into the
nested schema for object/array values (the processed value replaces the
in-place-mutated original); otherwise raise a rules error unless the
declared type set names a non-recursable type. -/
def checkChildren (pc : Schema → JVal → String → VRes (List ErrItem × JVal))
    (value : JVal) (valueType : VT) (ch : Schema) (defType : Option TypeF)
    (errorsKey : String) : VRes (List ErrItem × JVal) :=
  if valueType = .object ∨ valueType = .array then
    pc ch value (errorsKey ++ ".")
  else
    if childrenThrowCond defType then
      .rulesErr [⟨errorsKey, .CHILDREN_TYPE_ERROR, [("actual", .jstr (vtName valueType))]⟩]
    else
      .ok ([], value)

/-- Sequencing of engine steps; thrown exceptions and fuel exhaustion
propagate. -/
def VRes.bind {α β : Type} : VRes α → (α → VRes β) → VRes β
  | .ok a, f => f a
  | .dataErr i, _ => .dataErr i
  | .rulesErr i, _ => .rulesErr i
  | .fuel, _ => .fuel

/-- First-match association-list lookup (JS object property access; JS object
keys are unique). -/
def lookupStr {α : Type} : List (String × α) → String → Option α
  | [], _ => none
  | (k', v) :: rest, k => if k' = k then some v else lookupStr rest k

/-- Resolution `perType?.attr ?? def.attr` of one overlay attribute (`??` is
nullish coalescing: an absent overlay or an absent overlay attribute falls
back to the base rule). -/
def effAttr {α : Type} (pt : Option Rule) (get : Rule → Option α) (dfn : Rule) : Option α :=
  match pt with
  | some p =>
      match get p with
      | some x => some x
      | none => get dfn
  | none => get dfn

/-- The checks of `ODVRule.applyRule` that run after a successful type check:
`per_type` overlay resolution (never mutating the base rule), then — for
non-null values — the min/max, in-list, pattern/special and children steps
in order, each contributing its error entries.  The processed (possibly
child-rewritten) value is returned. -/
def applyRuleChecks (pc : Schema → JVal → String → VRes (List ErrItem × JVal))
    (dfn : Rule) (value : JVal) (valueType : VT) (errorsKey : String) :
    VRes (List ErrItem × JVal) :=
  let pt := lookupStr dfn.perType (vtName valueType)
  let mn := effAttr pt Rule.min dfn
  let mx := effAttr pt Rule.max dfn
  let inL := effAttr pt Rule.inList dfn
  let inPub := effAttr pt Rule.inPublic dfn
  let pat := effAttr pt Rule.pattern dfn
  let sp := effAttr pt Rule.special dfn
  let ch := effAttr pt Rule.children dfn
  if value = .jnull then .ok ([], value)
  else
    VRes.bind
      (if mn.isSome || mx.isSome then
        checkMinMax value valueType mn mx dfn.type errorsKey
      else .ok []) fun e1 =>
    VRes.bind
      (match inL with
       | some l => checkInList value valueType l inPub errorsKey
       | none => .ok []) fun e2 =>
    VRes.bind
      (if pat.isSome || sp.isSome then
        checkPattern value valueType pat sp errorsKey
      else .ok []) fun e3 =>
    VRes.bind
      (match ch with
       | some c => checkChildren pc value valueType c dfn.type errorsKey
       | none => .ok ([], value)) fun r4 =>
    .ok (e1 ++ e2 ++ e3 ++ r4.1, r4.2)

/-- `ODVRule.applyRule` from `rule.ts`: apply the transform, classify the
value, record a terminal type mismatch (non-finite numbers have no type, so
any constraint fails with actual `NaN/Infinity`), otherwise run the checks. -/
def applyRule (pc : Schema → JVal → String → VRes (List ErrItem × JVal))
    (dfn : Rule) (originalValue : JVal) (errorsKey : String) :
    VRes (List ErrItem × JVal) :=
  let value := match dfn.transform with
    | some f => f originalValue
    | none => originalValue
  match getValueType value with
  | none =>
      match typeConstraint dfn.type with
      | some ts =>
          .ok ([⟨errorsKey, .TYPE_MISMATCH,
            [("expected", .jstr (joinOr ts)), ("actual", .jstr "NaN/Infinity")]⟩], value)
      | none => .ok ([], value)
  | some valueType =>
      match typeConstraint dfn.type with
      | some ts =>
          if !(ts.contains (vtName valueType)) then
            .ok ([⟨errorsKey, .TYPE_MISMATCH,
              [("expected", .jstr (joinOr ts)), ("actual", .jstr (vtName valueType))]⟩], value)
          else applyRuleChecks pc dfn value valueType errorsKey
      | none => applyRuleChecks pc dfn value valueType errorsKey

/-- Schema entry access (`workingRules['#']`, `workingRules['*']`). -/
def getRule (s : Schema) (k : String) : Option Rule :=
  lookupStr s.1 k

/-- One key of the wildcard pass: the `#` rule applied to the key name
(errors at `prefix + key + "#key"`, result discarded), then the `*` rule
applied to the value (errors at `prefix + key`).  The stored value becomes
the processed value when `apply_transformed` requests write-back; when the
rule has no transform the processed value is the same object the source
mutated in place (child defaults and write-backs land in it), which this
structural model realizes by storing the processed value; with a transform
and no write-back the original value is kept (the source's child recursion
then mutated only the discarded transform result). -/
def wildApply (pc : Schema → JVal → String → VRes (List ErrItem × JVal))
    (hashRule starRule : Option Rule) (pfx k : String) (v : JVal) :
    VRes (List ErrItem × JVal) :=
  VRes.bind
    (match hashRule with
     | some hr =>
         VRes.bind (applyRule pc hr (.jstr k) (pfx ++ k ++ "#key")) fun r => .ok r.1
     | none => .ok []) fun hErrs =>
  match starRule with
  | some sr =>
      VRes.bind (applyRule pc sr v (pfx ++ k)) fun r =>
        let newV := if sr.applyTransformed = some true then r.2
          else if sr.transform.isNone then r.2
          else v
        .ok (hErrs ++ r.1, newV)
  | none => .ok (hErrs, v)

/-- The wildcard pass over an object's own keys, skipping unsafe key names. -/
def wildLoopObj (pc : Schema → JVal → String → VRes (List ErrItem × JVal))
    (hashRule starRule : Option Rule) (pfx : String) :
    List (String × JVal) → VRes (List ErrItem × List (String × JVal))
  | [] => .ok ([], [])
  | (k, v) :: rest =>
      if !(isSafeKey k) then
        VRes.bind (wildLoopObj pc hashRule starRule pfx rest) fun r =>
          .ok (r.1, (k, v) :: r.2)
      else
        VRes.bind (wildApply pc hashRule starRule pfx k v) fun s =>
        VRes.bind (wildLoopObj pc hashRule starRule pfx rest) fun r =>
          .ok (s.1 ++ r.1, (k, s.2) :: r.2)

/-- The wildcard pass over an array's indices; the key name handed to the
`#` rule is the decimal index string, and no safe-key filtering applies. -/
def wildLoopArr (pc : Schema → JVal → String → VRes (List ErrItem × JVal))
    (hashRule starRule : Option Rule) (pfx : String) (i : Nat) :
    List JVal → VRes (List ErrItem × List JVal)
  | [] => .ok ([], [])
  | v :: rest =>
      VRes.bind (wildApply pc hashRule starRule pfx (toString i) v) fun s =>
      VRes.bind (wildLoopArr pc hashRule starRule pfx (i + 1) rest) fun r =>
        .ok (s.1 ++ r.1, s.2 :: r.2)

/-- `ODVValidator.processWildcards`: nothing to do without `#` and `*`;
otherwise walk the container's own keys.  (The source never reaches this
pass with a primitive container; primitives are returned untouched.) -/
def processWildcards (pc : Schema → JVal → String → VRes (List ErrItem × JVal))
    (workingRules : Schema) (data : JVal) (pfx : String) :
    VRes (List ErrItem × JVal) :=
  let hashRule := getRule workingRules "#"
  let starRule := getRule workingRules "*"
  if hashRule.isNone && starRule.isNone then .ok ([], data)
  else
    match data with
    | .jobj fields =>
        VRes.bind (wildLoopObj pc hashRule starRule pfx fields) fun r =>
          .ok (r.1, .jobj r.2)
    | .jarr elems =>
        VRes.bind (wildLoopArr pc hashRule starRule pfx 0 elems) fun r =>
          .ok (r.1, .jarr r.2)
    | other => .ok ([], other)

/-- The strict-mode resolution of `enforceStrictMode`: an explicit per-level
`@.strict` overrides the ambient option
(`workingRules['@'] !== undefined && workingRules['@'].strict !== undefined`). -/
def effectiveStrict (opts : Option (Option Bool)) (ambient : Bool) : Bool :=
  match opts with
  | some (some b) => b
  | _ => ambient

/-- The schema's explicitly named fields: every key except the meta-keys. -/
def definedKeys (s : Schema) : List String :=
  (s.1.map Prod.fst).filter (fun k => !(k = "@" ∨ k = "#" ∨ k = "*" : Bool))

/-- `ODVValidator.enforceStrictMode`: under effective strict mode, every own
key of the data that is not an explicitly named schema field yields
`NOT_ALLOWED` at its path (no safe-key filtering here; a wildcard match
grants no admission). -/
def enforceStrictMode (ambient : Bool) (workingRules : Schema) (data : JVal)
    (pfx : String) : List ErrItem :=
  if effectiveStrict workingRules.2 ambient then
    match data with
    | .jobj fields =>
        (fields.map Prod.fst).filterMap fun k =>
          if (definedKeys workingRules).contains k then none
          else some ⟨pfx ++ k, .NOT_ALLOWED, []⟩
    | _ => []
  else []

/-- Own-key test (`Object.hasOwn(data, key)`). -/
def hasOwnKey (fields : List (String × JVal)) (k : String) : Bool :=
  fields.any (fun e => e.1 = k)

/-- JS property assignment on the field list: an existing key keeps its
position, a new key is appended. -/
def setKey : List (String × JVal) → String → JVal → List (String × JVal)
  | [], k, v => [(k, v)]
  | (k', v') :: rest, k, v =>
      if k' = k then (k', v) :: rest else (k', v') :: setKey rest k v

/-- The named-field pass of `ODVValidator.processNamedRules`, iterating the
schema's entries in order: meta-keys and unsafe field names are skipped;
a `default` is written for an absent field; a present field's rule is
applied (with the same write-back discipline as the wildcard pass); an
absent `required` field records `REQUIRED`. -/
def namedLoop (pc : Schema → JVal → String → VRes (List ErrItem × JVal))
    (pfx : String) :
    List (String × Rule) → List (String × JVal) →
    VRes (List ErrItem × List (String × JVal))
  | [], fields => .ok ([], fields)
  | (key, ruleSchema) :: rest, fields =>
      if key = "@" ∨ key = "#" ∨ key = "*" then namedLoop pc pfx rest fields
      else if !(isSafeKey key) then namedLoop pc pfx rest fields
      else
        let fields1 := match ruleSchema.dflt with
          | some d => if !(hasOwnKey fields key) then setKey fields key d else fields
          | none => fields
        match lookupStr fields1 key with
        | some v =>
            VRes.bind (applyRule pc ruleSchema v (pfx ++ key)) fun r =>
              let fields2 := if ruleSchema.applyTransformed = some true then setKey fields1 key r.2
                else if ruleSchema.transform.isNone then setKey fields1 key r.2
                else fields1
              VRes.bind (namedLoop pc pfx rest fields2) fun t =>
                .ok (r.1 ++ t.1, t.2)
        | none =>
            if ruleSchema.required = some true then
              VRes.bind (namedLoop pc pfx rest fields1) fun t =>
                .ok (⟨pfx ++ key, .REQUIRED, []⟩ :: t.1, t.2)
            else namedLoop pc pfx rest fields1

/-- `ODVValidator.processNamedRules` on the (non-array) data object.  (The
source only reaches this pass for non-array containers; a primitive has no
own keys, so field reads miss and default writes are not observable.) -/
def processNamedRules (pc : Schema → JVal → String → VRes (List ErrItem × JVal))
    (workingRules : Schema) (data : JVal) (pfx : String) :
    VRes (List ErrItem × JVal) :=
  match data with
  | .jobj fields =>
      VRes.bind (namedLoop pc pfx workingRules.1 fields) fun r =>
        .ok (r.1, .jobj r.2)
  | other => .ok ([], other)

/-- `ODVValidator.processRules`: the wildcard/key pass always runs; the
strict-mode check and the named-field pass run only when the container is
not an array.  The recursion into `children` levels goes through the
`processChildren` closure, here the same function at one fuel step less. -/
def processRules : Nat → Bool → Schema → JVal → String → VRes (List ErrItem × JVal)
  | 0, _, _, _, _ => .fuel
  | n + 1, strictM, rules, data, pfx =>
      let pc : Schema → JVal → String → VRes (List ErrItem × JVal) :=
        fun s v p => processRules n strictM s v p
      VRes.bind (processWildcards pc rules data pfx) fun w =>
        match data with
        | .jarr _ => .ok w
        | _ =>
            let e2 := enforceStrictMode strictM rules w.2 pfx
            VRes.bind (processNamedRules pc rules w.2 pfx) fun t =>
              .ok (w.1 ++ e2 ++ t.1, t.2)

/-- The resolved options record of `ODVValidator` (`validator.ts`);
`messageFormatter` only affects the derived message strings. -/
structure ResolvedOptions : Type where
  strictMode : Bool
  exceptionMode : Bool
  internalCall : Bool
deriving DecidableEq, Repr

/-- `DEFAULT_OPTIONS` from `validator.ts`. -/
def DEFAULT_OPTIONS : ResolvedOptions :=
  { strictMode := true, exceptionMode := true, internalCall := false }

/-- Encoding of a `@` options object as input data for the bootstrap. -/
def encodeOpts : Option Bool → JVal
  | some b => .jobj [("strict", .jbool b)]
  | none => .jobj []

mutual

/-- A rule definition read as a plain data object, as the bootstrap
validation sees it.  Attributes are emitted in the interface order of
`ODVRuleSchema` (a JS object's own order is the caller's writing order;
the bootstrap's checks are insensitive to it).  A `RegExp` pattern and a
transform function surface with `typeof` `object` and `function`
respectively. -/
def encodeRule : Rule → JVal
  | .mk i p mn mx pa sp tr ap ch t rq df pt =>
      .jobj (
        (match i with | some l => [("in", JVal.jarr l)] | none => []) ++
        (match p with
         | some (.bool b) => [("in:public", JVal.jbool b)]
         | some (.list l) => [("in:public", JVal.jarr l)]
         | none => []) ++
        (match mn with | some q => [("min", JVal.jnum (.fin q))] | none => []) ++
        (match mx with | some q => [("max", JVal.jnum (.fin q))] | none => []) ++
        (match pa with
         | some (.str s) => [("pattern", JVal.jstr s)]
         | some (.re _) => [("pattern", JVal.jobj [])]
         | none => []) ++
        (match sp with | some s => [("special", JVal.jstr s)] | none => []) ++
        (match tr with | some _ => [("transform", JVal.jfun)] | none => []) ++
        (match ap with | some b => [("apply_transformed", JVal.jbool b)] | none => []) ++
        (match ch with | some c => [("children", encodeSchemaVal c)] | none => []) ++
        (match t with
         | none => []
         | some .nullT => [("type", JVal.jnull)]
         | some (.one s) => [("type", JVal.jstr s)]
         | some (.many ts) => [("type", JVal.jarr (ts.map JVal.jstr))]) ++
        (match rq with | some b => [("required", JVal.jbool b)] | none => []) ++
        (match df with | some v => [("default", v)] | none => []) ++
        (match pt with
         | [] => []
         | l => [("per_type", JVal.jobj (encodeEntriesVal l))]))

/-- A nested rules schema read as a data object (its `@` options included). -/
def encodeSchemaVal : Schema → JVal
  | (es, o) =>
      .jobj ((match o with
        | some ob => [("@", encodeOpts ob)]
        | none => []) ++ encodeEntriesVal es)

/-- Entry list of rules read as data fields. -/
def encodeEntriesVal : List (String × Rule) → List (String × JVal)
  | [] => []
  | (k, r) :: rest => (k, encodeRule r) :: encodeEntriesVal rest

end

/-- The list of valid type names used by the meta-schema's `in` constraint. -/
def typeNameVals : List JVal :=
  [.jstr "string", .jstr "number", .jstr "integer", .jstr "array",
    .jstr "object", .jstr "boolean", .jstr "function", .jstr "null"]

/-- The list of valid `special` format names. -/
def specialNameVals : List JVal :=
  [.jstr "email", .jstr "phone", .jstr "us-phone", .jstr "url", .jstr "uuid",
    .jstr "ipv4", .jstr "date", .jstr "datetime", .jstr "hex-color"]

/-- The meta-rule at key `per_type` inside the meta-schema's `*.children`.
In `schemas.ts` it is written `{ '#': ..., '*': ... }`; `#` and `*` are not
rule attributes, so read as a rule definition it carries no recognized
attribute and applies no check — it is behaviorally the empty rule. -/
def perTypeMetaRule : Rule := Rule.empty

/-- The `children` schema of the meta-schema's `*` rule: the closed list of
valid rule attributes, validated strictly (`'@': { strict: true }`). -/
def starChildren : Schema :=
  ([("type", ((Rule.empty.withType (.many ["array"])).withIn typeNameVals).withInPublic (.bool true)),
    ("per_type", perTypeMetaRule),
    ("in", Rule.empty.withType (.many ["array"])),
    ("in:public", Rule.empty.withType (.many ["array", "boolean"])),
    ("min", Rule.empty.withType (.many ["number"])),
    ("max", Rule.empty.withType (.many ["number"])),
    ("required", Rule.empty.withType (.many ["boolean"])),
    ("pattern", Rule.empty.withType (.many ["object", "string"])),
    ("special", ((Rule.empty.withType (.many ["string"])).withIn specialNameVals).withInPublic (.bool true)),
    ("transform", Rule.empty.withType (.many ["function"])),
    ("apply_transformed", Rule.empty.withType (.many ["boolean"])),
    ("default", Rule.empty),
    ("children", Rule.empty.withType (.many ["object"]))], some (some true))

/-- `RULES_SCHEMA` from `schemas.ts`: the meta-schema.  Key names are
strings (`#` rule), every value is an object validated against the closed
attribute list (`*` rule), strictness off at the top level. -/
def RULES_SCHEMA : Schema :=
  ([("#", Rule.empty.withType (.one "string")),
    ("*", (Rule.empty.withType (.one "object")).withChildren starChildren)],
   some (some false))

/-- `RULES_OPTIONS_SCHEMA` from `schemas.ts`. -/
def RULES_OPTIONS_SCHEMA : Schema :=
  ([("strict", Rule.empty.withType (.many ["boolean"]))], none)

/-- The schema read as a data object with its `#` and `*` meta-keys moved to
the ordinary names `>>>#` and `>>>*` (`ODVRules.validate`); JS `delete` plus
re-add appends the renamed keys after the remaining ones.  (`@` has been
handled and deleted before this object is validated.) -/
def renamedEntriesData (entries : List (String × Rule)) : JVal :=
  .jobj ((entries.filter (fun e => !(e.1 = "#" ∨ e.1 = "*" : Bool))).map
      (fun e => (e.1, encodeRule e.2)) ++
    (match lookupStr entries "#" with
     | some r => [(">>>#", encodeRule r)]
     | none => []) ++
    (match lookupStr entries "*" with
     | some r => [(">>>*", encodeRule r)]
     | none => []))

/-- `ODVRules.validate` from `rules.ts`: the `@` options object is validated
against `RULES_OPTIONS_SCHEMA` by an internal strict validator, then the
renamed schema-as-data is validated against the meta-schema by an internal
non-strict validator; any inner validation failure is rethrown as a rules
exception carrying the inner error details.  (Internal validators skip
re-bootstrapping and input cloning; both meta-schemas are normalized at
their `ODVRules` construction.) -/
def rulesValidate (fuel : Nat) (rules : Schema) : VRes Unit :=
  VRes.bind
    (match rules.2 with
     | some o =>
         match processRules fuel true (normalizeSchema RULES_OPTIONS_SCHEMA) (encodeOpts o) "" with
         | .ok (errs, _) => if errs.isEmpty then .ok () else .rulesErr errs
         | .dataErr i => .rulesErr i
         | .rulesErr i => .rulesErr i
         | .fuel => .fuel
     | none => .ok ()) fun _ =>
  match processRules fuel false (normalizeSchema RULES_SCHEMA) (renamedEntriesData rules.1) "" with
  | .ok (errs, _) => if errs.isEmpty then .ok () else .rulesErr errs
  | .dataErr i => .rulesErr i
  | .rulesErr i => .rulesErr i
  | .fuel => .fuel

/-- `ODVValidator.validate` as exercised by the one-shot entry points: the
schema is normalized (at `ODVRules` construction), bootstrap-validated on
first use, and the input is processed.  The shallow input copy
(`Array.isArray(input) ? [...input] : {...input}`) is the identity in this
structural model; the heap model below gives it its aliasing semantics. -/
def validatorValidate (fuel : Nat) (rules : Schema) (strictM : Bool)
    (input : JVal) (pfx : String) : VRes (List ErrItem × JVal) :=
  let normalized := rulesNormalize rules
  VRes.bind (rulesValidate fuel normalized) fun _ =>
    processRules fuel strictM normalized input pfx

/-- `parse` from `json-schema.ts`: validate with exception mode on and
return the processed data; a nonempty error map surfaces as a thrown
`ODVException` carrying the complete map. -/
def parse (fuel : Nat) (rules : Schema) (strictM : Bool) (input : JVal)
    (pfx : String) : VRes JVal :=
  match validatorValidate fuel rules strictM input pfx with
  | .ok (errs, d) => if errs.isEmpty then .ok d else .dataErr errs
  | .dataErr i => .dataErr i
  | .rulesErr i => .rulesErr i
  | .fuel => .fuel

/-- The discriminated result of `safeParse`. -/
inductive SafeR : Type where
  | success : JVal → SafeR
  | failure : List ErrItem → SafeR
deriving DecidableEq, Repr

/-- `safeParse` from `json-schema.ts`: like `parse`, but a thrown
`ODVException` is caught and returned as a failure result, while a thrown
`ODVRulesException` is rethrown. -/
def safeParse (fuel : Nat) (rules : Schema) (strictM : Bool) (input : JVal)
    (pfx : String) : VRes SafeR :=
  match parse fuel rules strictM input pfx with
  | .ok d => .ok (.success d)
  | .dataErr e => .ok (.failure e)
  | .rulesErr i => .rulesErr i
  | .fuel => .fuel

/-!
The heap model.  The structural model above cannot express reference
identity, so the mutation/frame behavior of `ODVValidator.validate` — the
shallow input copy `{...input}` / `[...input]` and the in-place writes of
`processWildcards`, `processNamedRules` and the `children` recursion — is
modelled here with an explicit heap.  Objects and arrays are heap cells
addressed by `Addr`; field values are primitives or references.  The engine
is the same algorithm as above with the data operations reading and writing
the heap.  Caller-supplied transform callbacks are modelled as producing a
fresh tree value, materialized at fresh addresses (an opaque callback that
captured and returned an existing reference — including the caller's input
object itself — can defeat any immutability property, and the engine cannot
prevent that); `default` values are likewise materialized fresh.  The
bootstrap is not repeated here: it validates the schema value, which lives
outside the modelled data heap, and never touches the input.
-/

namespace HM

abbrev Addr : Type := Nat

/-- A primitive JS value. -/
inductive Prim : Type where
  | pstr : String → Prim
  | pnum : JNum → Prim
  | pbool : Bool → Prim
  | pnull : Prim
  | pfun : Prim
deriving DecidableEq, Repr

/-- A stored value: a primitive or a reference to a heap cell. -/
inductive HVal : Type where
  | prim : Prim → HVal
  | ref : Addr → HVal
deriving DecidableEq, Repr

/-- A heap cell: a plain object (ordered own fields) or an array. -/
inductive HObj : Type where
  | obj : List (String × HVal) → HObj
  | arr : List HVal → HObj
deriving DecidableEq, Repr

/-- The heap: the next fresh address and the allocated cells. -/
structure Heap : Type where
  nxt : Addr
  cells : List (Addr × HObj)
deriving DecidableEq, Repr

/-- Cell lookup (first match; addresses are unique in well-formed heaps). -/
def Heap.lookup (h : Heap) (a : Addr) : Option HObj :=
  go h.cells a
where
  go : List (Addr × HObj) → Addr → Option HObj
    | [], _ => none
    | (a', o) :: rest, a => if a' = a then some o else go rest a

/-- Overwrite the cell at an existing address (no-op on absent addresses). -/
def Heap.write (h : Heap) (a : Addr) (o : HObj) : Heap :=
  ⟨h.nxt, go h.cells a o⟩
where
  go : List (Addr × HObj) → Addr → HObj → List (Addr × HObj)
    | [], _, _ => []
    | (a', o') :: rest, a, o =>
        if a' = a then (a', o) :: rest else (a', o') :: go rest a o

/-- Allocate a fresh cell. -/
def Heap.alloc (h : Heap) (o : HObj) : Heap × Addr :=
  (⟨h.nxt + 1, h.cells ++ [(h.nxt, o)]⟩, h.nxt)

/-- The value a `transform` callback returns: an arbitrary JS value, so
leaves may be existing heap references (returning the argument, or any
object the callback closed over, included) and object/array nodes are
freshly constructed structure around them. -/
inductive TrVal : Type where
  | prim : Prim → TrVal
  | ref : Addr → TrVal
  | tobj : List (String × TrVal) → TrVal
  | tarr : List TrVal → TrVal

/-- A heap-model rule: the same attributes as `Rule`, with `children`
holding a heap-model schema, `transform` returning an arbitrary value
(`TrVal`), and `default` a stored value — `deepCloneRuleDef` is a spread
`{...def}` that does not clone `default`, so a `default` object stays a
reference into the caller's schema and is inserted by reference. -/
inductive HRule : Type where
  | mk :
      (inList : Option (List JVal)) →
      (inPublic : Option InPub) →
      (min : Option ℚ) →
      (max : Option ℚ) →
      (pattern : Option PatternV) →
      (special : Option String) →
      (transform : Option (HVal → TrVal)) →
      (applyTransformed : Option Bool) →
      (children : Option (List (String × HRule) × Option (Option Bool))) →
      (type : Option TypeF) →
      (required : Option Bool) →
      (dflt : Option HVal) →
      (perType : List (String × HRule)) →
      HRule

/-- A heap-model rules schema, as `Schema` above. -/
abbrev HSchema : Type := List (String × HRule) × Option (Option Bool)

namespace HRule

def inList : HRule → Option (List JVal)
  | .mk i _ _ _ _ _ _ _ _ _ _ _ _ => i

def inPublic : HRule → Option InPub
  | .mk _ p _ _ _ _ _ _ _ _ _ _ _ => p

def min : HRule → Option ℚ
  | .mk _ _ m _ _ _ _ _ _ _ _ _ _ => m

def max : HRule → Option ℚ
  | .mk _ _ _ m _ _ _ _ _ _ _ _ _ => m

def pattern : HRule → Option PatternV
  | .mk _ _ _ _ p _ _ _ _ _ _ _ _ => p

def special : HRule → Option String
  | .mk _ _ _ _ _ s _ _ _ _ _ _ _ => s

def transform : HRule → Option (HVal → TrVal)
  | .mk _ _ _ _ _ _ t _ _ _ _ _ _ => t

def applyTransformed : HRule → Option Bool
  | .mk _ _ _ _ _ _ _ a _ _ _ _ _ => a

def children : HRule → Option HSchema
  | .mk _ _ _ _ _ _ _ _ c _ _ _ _ => c

def type : HRule → Option TypeF
  | .mk _ _ _ _ _ _ _ _ _ t _ _ _ => t

def required : HRule → Option Bool
  | .mk _ _ _ _ _ _ _ _ _ _ r _ _ => r

def dflt : HRule → Option HVal
  | .mk _ _ _ _ _ _ _ _ _ _ _ d _ => d

def perType : HRule → List (String × HRule)
  | .mk _ _ _ _ _ _ _ _ _ _ _ _ p => p

/-- The rule with every attribute absent. -/
def empty : HRule := .mk none none none none none none none none none none none none []

def withType (t : TypeF) : HRule → HRule
  | .mk i p mn mx pa sp tr ap ch _ rq df pt => .mk i p mn mx pa sp tr ap ch (some t) rq df pt

def withChildren (s : HSchema) : HRule → HRule
  | .mk i p mn mx pa sp tr ap _ t rq df pt => .mk i p mn mx pa sp tr ap (some s) t rq df pt

def withDefault (v : HVal) : HRule → HRule
  | .mk i p mn mx pa sp tr ap ch t rq _ pt => .mk i p mn mx pa sp tr ap ch t rq (some v) pt

def withTransform (f : HVal → TrVal) : HRule → HRule
  | .mk i p mn mx pa sp _ ap ch t rq df pt => .mk i p mn mx pa sp (some f) ap ch t rq df pt

def withApplyTransformed (b : Bool) : HRule → HRule
  | .mk i p mn mx pa sp tr _ ch t rq df pt => .mk i p mn mx pa sp tr (some b) ch t rq df pt

def withRequired (b : Bool) : HRule → HRule
  | .mk i p mn mx pa sp tr ap ch t _ df pt => .mk i p mn mx pa sp tr ap ch t (some b) df pt

end HRule

mutual

/-- Materialize a transform result into the heap: primitives stay inline,
existing references are kept as they are (a callback may return any object
it can reach), and fresh object/array structure becomes fresh cells. -/
def materializeTr (h : Heap) : TrVal → Heap × HVal
  | .prim p => (h, .prim p)
  | .ref a => (h, .ref a)
  | .tobj fields =>
      let r := materializeTrFields h fields
      let r2 := Heap.alloc r.1 (.obj r.2)
      (r2.1, .ref r2.2)
  | .tarr es =>
      let r := materializeTrElems h es
      let r2 := Heap.alloc r.1 (.arr r.2)
      (r2.1, .ref r2.2)

def materializeTrFields (h : Heap) : List (String × TrVal) → Heap × List (String × HVal)
  | [] => (h, [])
  | (k, v) :: rest =>
      let r := materializeTr h v
      let r2 := materializeTrFields r.1 rest
      (r2.1, (k, r.2) :: r2.2)

def materializeTrElems (h : Heap) : List TrVal → Heap × List HVal
  | [] => (h, [])
  | v :: rest =>
      let r := materializeTr h v
      let r2 := materializeTrElems r.1 rest
      (r2.1, r.2 :: r2.2)

end

/-- Result of a heap-model computation; the heap at the moment a rules
exception is thrown is retained (mutations performed before a throw persist
in JS). -/
inductive HRes (α : Type) : Type where
  | ok : Heap → α → HRes α
  | rulesErr : Heap → List ErrItem → HRes α
  | fuel : HRes α

def HRes.bind {α β : Type} : HRes α → (Heap → α → HRes β) → HRes β
  | .ok h a, f => f h a
  | .rulesErr h i, _ => .rulesErr h i
  | .fuel, _ => .fuel

/-- Lift a pure check result into the heap model (checks read values but
never write the heap; they never produce a data exception). -/
def liftV {α : Type} (h : Heap) : VRes α → HRes α
  | .ok a => .ok h a
  | .rulesErr i => .rulesErr h i
  | .dataErr i => .rulesErr h i
  | .fuel => .fuel

/-- `getValueType` over heap values: references classify by their cell. -/
def hGetValueType (h : Heap) : HVal → Option VT
  | .prim (.pstr _) => some .string
  | .prim (.pnum (.fin q)) => some (if q.den = 1 then .integer else .number)
  | .prim (.pnum _) => none
  | .prim (.pbool _) => some .boolean
  | .prim .pnull => some .nullt
  | .prim .pfun => some .func
  | .ref a =>
      match h.lookup a with
      | some (.arr _) => some .array
      | _ => some .object

/-- `getValueForMinOrMax` over heap values. -/
def hGetValueForMinOrMax (h : Heap) : HVal → VT → Option ℚ
  | .ref a, .array =>
      (match h.lookup a with
       | some (.arr es) => some ((es.length : ℚ))
       | _ => none)
  | .prim (.pstr s), .string => some ((s.length : ℚ))
  | .prim (.pnum (.fin q)), .number => some q
  | .prim (.pnum (.fin q)), .integer => some q
  | _, _ => none

/-- `SameValueZero` between a heap value and a schema-list value: primitives
by value, references never (a heap object never shares a reference with a
schema-owned list element). -/
def hSameValueZero (v : HVal) (x : JVal) : Bool :=
  match v with
  | .prim (.pstr s) => jsSameValueZero (.jstr s) x
  | .prim (.pnum n) => jsSameValueZero (.jnum n) x
  | .prim (.pbool b) => jsSameValueZero (.jbool b) x
  | .prim .pnull => jsSameValueZero .jnull x
  | .prim .pfun => false
  | .ref _ => false

/-- `inList.includes(value)` for a heap value. -/
def hIncludes (l : List JVal) (v : HVal) : Bool :=
  l.any (fun x => hSameValueZero v x)

/-- `checkMinMax` over heap values. -/
def hCheckMinMax (h : Heap) (value : HVal) (valueType : VT) (mn mx : Option ℚ)
    (defType : Option TypeF) (errorsKey : String) : VRes (List ErrItem) :=
  match hGetValueForMinOrMax h value valueType with
  | some m =>
      .ok
        ((match mn with
          | some lo => if m < lo then
              [⟨errorsKey, .MIN_VIOLATION, [("min", .jnum (.fin lo)), ("actual", .jnum (.fin m))]⟩]
            else []
          | none => []) ++
         (match mx with
          | some hi => if hi < m then
              [⟨errorsKey, .MAX_VIOLATION, [("max", .jnum (.fin hi)), ("actual", .jnum (.fin m))]⟩]
            else []
          | none => []))
  | none =>
      if minMaxTolerated defType then .ok []
      else .rulesErr [⟨errorsKey, .MIN_MAX_NOT_APPLICABLE, [("actual", .jstr (vtName valueType))]⟩]

/-- `checkInList` over heap values. -/
def hCheckInList (h : Heap) (value : HVal) (valueType : VT) (inL : List JVal)
    (inPub : Option InPub) (errorsKey : String) : VRes (List ErrItem) :=
  if valueType = .object then
    .rulesErr [⟨errorsKey, .IN_NOT_APPLICABLE, []⟩]
  else if valueType = .array then
    .ok (match value with
      | .ref a =>
          (match h.lookup a with
           | some (.arr es) =>
               if es.any (fun v => !(hIncludes inL v)) then
                 [⟨errorsKey, .ARRAY_ELEMENT_NOT_IN_LIST, allowedParams inL inPub⟩]
               else []
           | _ => [])
      | _ => [])
  else
    .ok (if !(hIncludes inL value) then
      [⟨errorsKey, .VALUE_NOT_IN_LIST, allowedParams inL inPub⟩]
    else [])

/-- `checkPattern` over heap values. -/
def hCheckPattern (value : HVal) (valueType : VT) (pat : Option PatternV)
    (sp : Option String) (errorsKey : String) : VRes (List ErrItem) :=
  if valueType ≠ .string then
    .ok [⟨errorsKey, .PATTERN_MISMATCH, []⟩]
  else
    .ok (match value with
      | .prim (.pstr s) =>
          (match sp with
           | some name =>
               (match SPECIAL_MAX_LENGTHS name with
                | some maxLen =>
                    if maxLen < s.length then
                      [⟨errorsKey, .INVALID_FORMAT, [("format", .jstr name)]⟩]
                    else
                      match SPECIAL_VALIDATORS name with
                      | some test =>
                          if !(test s) then
                            [⟨errorsKey, .INVALID_FORMAT, [("format", .jstr name)]⟩]
                          else []
                      | none => []
                | none =>
                    match SPECIAL_VALIDATORS name with
                    | some test =>
                        if !(test s) then
                          [⟨errorsKey, .INVALID_FORMAT, [("format", .jstr name)]⟩]
                        else []
                    | none => [])
           | none => []) ++
          (match pat with
           | some p => if !(patternTest p s) then [⟨errorsKey, .PATTERN_MISMATCH, []⟩] else []
           | none => [])
      | _ => [])

/-- Overlay resolution `perType?.attr ?? def.attr` for heap-model rules. -/
def hEffAttr {α : Type} (pt : Option HRule) (get : HRule → Option α) (dfn : HRule) : Option α :=
  match pt with
  | some p =>
      match get p with
      | some x => some x
      | none => get dfn
  | none => get dfn

/-- The post-type-check steps of the heap-model rule evaluator. -/
def happlyRuleChecks (pc : HSchema → Heap → Addr → String → HRes (List ErrItem))
    (dfn : HRule) (h : Heap) (value : HVal) (valueType : VT) (errorsKey : String) :
    HRes (List ErrItem × HVal) :=
  let pt := lookupStr dfn.perType (vtName valueType)
  let mn := hEffAttr pt HRule.min dfn
  let mx := hEffAttr pt HRule.max dfn
  let inL := hEffAttr pt HRule.inList dfn
  let inPub := hEffAttr pt HRule.inPublic dfn
  let pat := hEffAttr pt HRule.pattern dfn
  let sp := hEffAttr pt HRule.special dfn
  let ch := hEffAttr pt HRule.children dfn
  if value = .prim .pnull then .ok h ([], value)
  else
    HRes.bind
      (liftV h (if mn.isSome || mx.isSome then
        hCheckMinMax h value valueType mn mx dfn.type errorsKey
      else .ok [])) fun h1 e1 =>
    HRes.bind
      (liftV h1 (match inL with
       | some l => hCheckInList h1 value valueType l inPub errorsKey
       | none => .ok [])) fun h2 e2 =>
    HRes.bind
      (liftV h2 (if pat.isSome || sp.isSome then
        hCheckPattern value valueType pat sp errorsKey
      else .ok [])) fun h3 e3 =>
    HRes.bind
      (match ch with
       | some c =>
           if valueType = .object ∨ valueType = .array then
             match value with
             | .ref a => pc c h3 a (errorsKey ++ ".")
             | .prim _ => .ok h3 []
           else
             if childrenThrowCond dfn.type then
               .rulesErr h3 [⟨errorsKey, .CHILDREN_TYPE_ERROR, [("actual", .jstr (vtName valueType))]⟩]
             else .ok h3 []
       | none => .ok h3 []) fun h4 e4 =>
    .ok h4 (e1 ++ e2 ++ e3 ++ e4, value)

/-- `ODVRule.applyRule` over the heap: the transform result — which may be
or contain references to existing cells — is materialized; the children
recursion descends into the referenced cell and mutates it in place (the
returned value is the same reference). -/
def happlyRule (pc : HSchema → Heap → Addr → String → HRes (List ErrItem))
    (dfn : HRule) (h0 : Heap) (originalValue : HVal) (errorsKey : String) :
    HRes (List ErrItem × HVal) :=
  let tr := match dfn.transform with
    | some f => materializeTr h0 (f originalValue)
    | none => (h0, originalValue)
  let h := tr.1
  let value := tr.2
  match hGetValueType h value with
  | none =>
      match typeConstraint dfn.type with
      | some ts =>
          .ok h ([⟨errorsKey, .TYPE_MISMATCH,
            [("expected", .jstr (joinOr ts)), ("actual", .jstr "NaN/Infinity")]⟩], value)
      | none => .ok h ([], value)
  | some valueType =>
      match typeConstraint dfn.type with
      | some ts =>
          if !(ts.contains (vtName valueType)) then
            .ok h ([⟨errorsKey, .TYPE_MISMATCH,
              [("expected", .jstr (joinOr ts)), ("actual", .jstr (vtName valueType))]⟩], value)
          else happlyRuleChecks pc dfn h value valueType errorsKey
      | none => happlyRuleChecks pc dfn h value valueType errorsKey

/-- Read a field of the object cell at `a` (a key from the pass's snapshot
is never deleted, so the fallback is unreachable). -/
def readField (h : Heap) (a : Addr) (k : String) : HVal :=
  match h.lookup a with
  | some (.obj fl) =>
      match lookupStr fl k with
      | some v => v
      | none => .prim .pnull
  | _ => .prim .pnull

/-- JS field assignment on the object cell at `a`. -/
def writeField (h : Heap) (a : Addr) (k : String) (v : HVal) : Heap :=
  match h.lookup a with
  | some (.obj fl) => h.write a (.obj (go fl k v))
  | _ => h
where
  go : List (String × HVal) → String → HVal → List (String × HVal)
    | [], k, v => [(k, v)]
    | (k', v') :: rest, k, v =>
        if k' = k then (k', v) :: rest else (k', v') :: go rest k v

/-- Read the array element at index `i` of the cell at `a`. -/
def readIdx (h : Heap) (a : Addr) (i : Nat) : HVal :=
  match h.lookup a with
  | some (.arr es) =>
      match es.get? i with
      | some v => v
      | none => .prim .pnull
  | _ => .prim .pnull

/-- Write the array element at index `i` of the cell at `a`. -/
def writeIdx (h : Heap) (a : Addr) (i : Nat) (v : HVal) : Heap :=
  match h.lookup a with
  | some (.arr es) => h.write a (.arr (es.set i v))
  | _ => h

/-- Own-key test against the current heap. -/
def hHasOwn (h : Heap) (a : Addr) (k : String) : Bool :=
  match h.lookup a with
  | some (.obj fl) => hasOwnKey' fl k
  | _ => false
where
  hasOwnKey' : List (String × HVal) → String → Bool
    | [], _ => false
    | (k', _) :: rest, k => k' = k || hasOwnKey' rest k

/-- One key of the heap-model wildcard pass: `#` on the key name, `*` on the
freshly read value, write-back only under `apply_transformed` (in-place
child mutations need no write-back here — they live in the heap). -/
def hWildApply (pc : HSchema → Heap → Addr → String → HRes (List ErrItem))
    (hashRule starRule : Option HRule) (pfx : String) (k : String)
    (h : Heap) (v : HVal) (writeBack : Heap → HVal → Heap) : HRes (List ErrItem) :=
  HRes.bind
    (match hashRule with
     | some hr =>
         HRes.bind (happlyRule pc hr h (.prim (.pstr k)) (pfx ++ k ++ "#key")) fun h' r =>
           .ok h' r.1
     | none => .ok h []) fun h1 hErrs =>
  match starRule with
  | some sr =>
      HRes.bind (happlyRule pc sr h1 v (pfx ++ k)) fun h2 r =>
        let h3 := if sr.applyTransformed = some true then writeBack h2 r.2 else h2
        .ok h3 (hErrs ++ r.1)
  | none => .ok h1 hErrs

/-- The heap-model wildcard pass over an object's snapshotted key list. -/
def hWildLoopObj (pc : HSchema → Heap → Addr → String → HRes (List ErrItem))
    (hashRule starRule : Option HRule) (pfx : String) (a : Addr) :
    Heap → List String → HRes (List ErrItem)
  | h, [] => .ok h []
  | h, k :: rest =>
      if !(isSafeKey k) then hWildLoopObj pc hashRule starRule pfx a h rest
      else
        HRes.bind
          (hWildApply pc hashRule starRule pfx k h (readField h a k)
            (fun h' v => writeField h' a k v)) fun h1 errs =>
        HRes.bind (hWildLoopObj pc hashRule starRule pfx a h1 rest) fun h2 errs2 =>
          .ok h2 (errs ++ errs2)

/-- The heap-model wildcard pass over an array's indices. -/
def hWildLoopArr (pc : HSchema → Heap → Addr → String → HRes (List ErrItem))
    (hashRule starRule : Option HRule) (pfx : String) (a : Addr) :
    Heap → Nat → Nat → HRes (List ErrItem)
  | h, _, 0 => .ok h []
  | h, i, m + 1 =>
      HRes.bind
        (hWildApply pc hashRule starRule pfx (toString i) h (readIdx h a i)
          (fun h' v => writeIdx h' a i v)) fun h1 errs =>
      HRes.bind (hWildLoopArr pc hashRule starRule pfx a h1 (i + 1) m) fun h2 errs2 =>
        .ok h2 (errs ++ errs2)

/-- `processWildcards` over the heap. -/
def hProcessWildcards (pc : HSchema → Heap → Addr → String → HRes (List ErrItem))
    (workingRules : HSchema) (h : Heap) (a : Addr) (pfx : String) :
    HRes (List ErrItem) :=
  let hashRule := lookupStr workingRules.1 "#"
  let starRule := lookupStr workingRules.1 "*"
  if hashRule.isNone && starRule.isNone then .ok h []
  else
    match h.lookup a with
    | some (.obj fl) => hWildLoopObj pc hashRule starRule pfx a h (fl.map Prod.fst)
    | some (.arr es) => hWildLoopArr pc hashRule starRule pfx a h 0 es.length
    | none => .ok h []

/-- The schema's explicitly named fields, heap model. -/
def hDefinedKeys (s : HSchema) : List String :=
  (s.1.map Prod.fst).filter (fun k => !(k = "@" ∨ k = "#" ∨ k = "*" : Bool))

/-- `enforceStrictMode` over the heap. -/
def hEnforceStrictMode (ambient : Bool) (workingRules : HSchema) (h : Heap)
    (a : Addr) (pfx : String) : List ErrItem :=
  if effectiveStrict workingRules.2 ambient then
    match h.lookup a with
    | some (.obj fl) =>
        (fl.map Prod.fst).filterMap fun k =>
          if (hDefinedKeys workingRules).contains k then none
          else some ⟨pfx ++ k, .NOT_ALLOWED, []⟩
    | _ => []
  else []

/-- The heap-model named-field pass. `data[key] = ruleSchema.default`
assigns the schema's default value by reference, so a default that is an
object stays shared with the schema it came from. -/
def hNamedLoop (pc : HSchema → Heap → Addr → String → HRes (List ErrItem))
    (pfx : String) (a : Addr) :
    List (String × HRule) → Heap → HRes (List ErrItem)
  | [], h => .ok h []
  | (key, ruleSchema) :: rest, h =>
      if key = "@" ∨ key = "#" ∨ key = "*" then hNamedLoop pc pfx a rest h
      else if !(isSafeKey key) then hNamedLoop pc pfx a rest h
      else
        let h1 := match ruleSchema.dflt with
          | some d =>
              if !(hHasOwn h a key) then writeField h a key d
              else h
          | none => h
        if hHasOwn h1 a key then
          HRes.bind (happlyRule pc ruleSchema h1 (readField h1 a key) (pfx ++ key)) fun h2 r =>
            let h3 := if ruleSchema.applyTransformed = some true then writeField h2 a key r.2 else h2
            HRes.bind (hNamedLoop pc pfx a rest h3) fun h4 errs2 =>
              .ok h4 (r.1 ++ errs2)
        else if ruleSchema.required = some true then
          HRes.bind (hNamedLoop pc pfx a rest h1) fun h2 errs2 =>
            .ok h2 (⟨pfx ++ key, .REQUIRED, []⟩ :: errs2)
        else hNamedLoop pc pfx a rest h1

/-- `processRules` over the heap: wildcards, then — when the cell is not an
array — the strict check and the named pass. -/
def hProcessRules : Nat → Bool → HSchema → Heap → Addr → String → HRes (List ErrItem)
  | 0, _, _, _, _, _ => .fuel
  | n + 1, strictM, rules, h, a, pfx =>
      let pc : HSchema → Heap → Addr → String → HRes (List ErrItem) :=
        fun s h' a' p => hProcessRules n strictM s h' a' p
      HRes.bind (hProcessWildcards pc rules h a pfx) fun h1 e1 =>
        match h1.lookup a with
        | some (.arr _) => .ok h1 e1
        | _ =>
            let e2 := hEnforceStrictMode strictM rules h1 a pfx
            HRes.bind (hNamedLoop pc pfx a rules.1 h1) fun h2 e3 =>
              .ok h2 (e1 ++ e2 ++ e3)

/-- The shallow input copy of `ODVValidator.validate`
(`Array.isArray(input) ? [...input] : {...input}`): a fresh cell with the
same field list — nested references are shared with the caller's object. -/
def hShallowClone (h : Heap) (a : Addr) : Heap × Addr :=
  match h.lookup a with
  | some o => h.alloc o
  | none => h.alloc (.obj [])

/-- `ODVValidator.validate` over the heap (the bootstrap, which never
touches the input heap, is elided; the schema is taken pre-normalized as
`processRules` receives it).  Returns the collected errors and the address
of the engine's working copy. -/
def hValidate (fuel : Nat) (rules : HSchema) (strictM : Bool) (h : Heap)
    (a : Addr) (pfx : String) : HRes (List ErrItem × Addr) :=
  let c := hShallowClone h a
  HRes.bind (hProcessRules fuel strictM rules c.1 c.2 pfx) fun h1 errs =>
    .ok h1 (errs, c.2)

end HM

/-!
Supporting lemmas: which error codes can surface as error-map entries and
which as rules exceptions, across the whole engine.
-/

/-- The codes that `rule.ts` raises through `throwRulesError` (a thrown
`ODVRulesException`). -/
def promotedCodes : List ECode :=
  [.MIN_MAX_NOT_APPLICABLE, .IN_NOT_APPLICABLE, .CHILDREN_TYPE_ERROR]

/-- Every entry of a collected error list carries a non-promoted code. -/
def GoodErrs (es : List ErrItem) : Prop :=
  ∀ e ∈ es, e.code ∉ promotedCodes

/-- Every entry of a thrown rules-exception info map carries a promoted code. -/
def GoodExc (es : List ErrItem) : Prop :=
  ∀ e ∈ es, e.code ∈ promotedCodes

/-- The code discipline of an engine result: collected entries never carry a
promoted code, exception info always does, and the engine itself never
throws a data exception. -/
def GoodResE : VRes (List ErrItem) → Prop
  | .ok es => GoodErrs es
  | .rulesErr i => GoodExc i
  | .dataErr _ => False
  | .fuel => True

/-- The code discipline of a result that also carries a value. -/
def GoodResV : VRes (List ErrItem × JVal) → Prop
  | .ok p => GoodErrs p.1
  | .rulesErr i => GoodExc i
  | .dataErr _ => False
  | .fuel => True

theorem GoodErrs_nil : GoodErrs [] := by
  intro e he; cases he

theorem GoodErrs_append {a b : List ErrItem} (ha : GoodErrs a) (hb : GoodErrs b) :
    GoodErrs (a ++ b) := by
  intro e he
  rcases List.mem_append.mp he with h | h
  · exact ha e h
  · exact hb e h

theorem GoodErrs_singleton {e : ErrItem} (h : e.code ∉ promotedCodes) :
    GoodErrs [e] := by
  intro x hx
  rcases List.mem_singleton.mp hx with rfl
  exact h

theorem goodE_checkMinMax (value : JVal) (t : VT) (mn mx : Option ℚ)
    (dt : Option TypeF) (k : String) : GoodResE (checkMinMax value t mn mx dt k) := by
  unfold checkMinMax
  match getValueForMinOrMax value t with
  | some m =>
      apply GoodErrs_append
      · match mn with
        | some lo =>
            by_cases h : m < lo <;> simp [h, GoodErrs_nil]
            · exact GoodErrs_singleton (by simp [promotedCodes])
        | none => exact GoodErrs_nil
      · match mx with
        | some hi =>
            by_cases h : hi < m <;> simp [h, GoodErrs_nil]
            · exact GoodErrs_singleton (by simp [promotedCodes])
        | none => exact GoodErrs_nil
  | none =>
      by_cases h : minMaxTolerated dt = true <;> simp [h, GoodResE]
      · exact GoodErrs_nil
      · intro e he
        rcases List.mem_singleton.mp he with rfl
        simp [promotedCodes]

theorem goodE_checkInList (value : JVal) (t : VT) (l : List JVal)
    (ip : Option InPub) (k : String) : GoodResE (checkInList value t l ip k) := by
  unfold checkInList
  by_cases h1 : t = .object
  · simp only [h1, if_pos rfl]
    intro e he
    rcases List.mem_singleton.mp he with rfl
    simp [promotedCodes]
  · by_cases h2 : t = .array <;> simp only [h1, h2, if_neg, if_pos, ite_true, ite_false]
    · match value with
      | .jarr xs =>
          by_cases h3 : xs.any (fun v => !(jsIncludes l v)) = true <;> simp [h3]
          · exact GoodErrs_singleton (by simp [promotedCodes])
          · exact GoodErrs_nil
      | .jnum n => exact GoodErrs_nil
      | .jstr s => exact GoodErrs_nil
      | .jbool b => exact GoodErrs_nil
      | .jnull => exact GoodErrs_nil
      | .jfun => exact GoodErrs_nil
      | .jobj f => exact GoodErrs_nil
    · by_cases h3 : jsIncludes l value = true <;> simp [h3]
      · exact GoodErrs_nil
      · exact GoodErrs_singleton (by simp [promotedCodes])

theorem goodE_checkPattern (value : JVal) (t : VT) (pat : Option PatternV)
    (sp : Option String) (k : String) : GoodResE (checkPattern value t pat sp k) := by
  unfold checkPattern
  split
  · exact GoodErrs_singleton (by simp [promotedCodes])
  · show GoodErrs _
    cases value with
    | jstr s =>
        apply GoodErrs_append
        · repeat' split
          all_goals
            first
              | exact GoodErrs_nil
              | exact GoodErrs_singleton (by simp [promotedCodes])
        · repeat' split
          all_goals
            first
              | exact GoodErrs_nil
              | exact GoodErrs_singleton (by simp [promotedCodes])
    | jnum n => exact GoodErrs_nil
    | jbool b => exact GoodErrs_nil
    | jnull => exact GoodErrs_nil
    | jfun => exact GoodErrs_nil
    | jobj f => exact GoodErrs_nil
    | jarr xs => exact GoodErrs_nil

/-- The discipline of a child processor, as assumed of the `processChildren`
callback. -/
def GoodPC (pc : Schema → JVal → String → VRes (List ErrItem × JVal)) : Prop :=
  ∀ s v p, GoodResV (pc s v p)

theorem goodV_checkChildren {pc : Schema → JVal → String → VRes (List ErrItem × JVal)}
    (hpc : GoodPC pc) (value : JVal) (t : VT) (c : Schema) (dt : Option TypeF)
    (k : String) : GoodResV (checkChildren pc value t c dt k) := by
  unfold checkChildren
  by_cases h1 : t = .object ∨ t = .array
  · simp only [h1, if_pos]
    exact hpc c value (k ++ ".")
  · simp only [h1, if_neg, ite_false]
    by_cases h2 : childrenThrowCond dt = true <;> simp [h2]
    · intro e he
      rcases List.mem_singleton.mp he with rfl
      simp [promotedCodes]
    · exact GoodErrs_nil

theorem goodV_bind_errs {x : VRes (List ErrItem)}
    {f : List ErrItem → VRes (List ErrItem × JVal)} (hx : GoodResE x)
    (hf : ∀ es, GoodErrs es → GoodResV (f es)) : GoodResV (VRes.bind x f) := by
  cases x with
  | ok es => exact hf es hx
  | dataErr i => exact hx.elim
  | rulesErr i => exact hx
  | fuel => trivial

theorem goodV_bind_pair {x : VRes (List ErrItem × JVal)}
    {f : List ErrItem × JVal → VRes (List ErrItem × JVal)} (hx : GoodResV x)
    (hf : ∀ p, GoodErrs p.1 → GoodResV (f p)) : GoodResV (VRes.bind x f) := by
  cases x with
  | ok p => exact hf p hx
  | dataErr i => exact hx.elim
  | rulesErr i => exact hx
  | fuel => trivial

theorem goodV_applyRuleChecks {pc : Schema → JVal → String → VRes (List ErrItem × JVal)}
    (hpc : GoodPC pc) (dfn : Rule) (value : JVal) (t : VT) (k : String) :
    GoodResV (applyRuleChecks pc dfn value t k) := by
  unfold applyRuleChecks
  by_cases h0 : value = JVal.jnull
  · simp only [h0, if_pos rfl]
    exact GoodErrs_nil
  · simp only [h0, ite_false]
    apply goodV_bind_errs
    · split
      · exact goodE_checkMinMax ..
      · exact GoodErrs_nil
    · intro e1 he1
      apply goodV_bind_errs
      · split
        · exact goodE_checkInList ..
        · exact GoodErrs_nil
      · intro e2 he2
        apply goodV_bind_errs
        · split
          · exact goodE_checkPattern ..
          · exact GoodErrs_nil
        · intro e3 he3
          apply goodV_bind_pair
          · split
            · exact goodV_checkChildren hpc ..
            · exact GoodErrs_nil
          · intro p hp
            exact GoodErrs_append (GoodErrs_append (GoodErrs_append he1 he2) he3) hp

theorem goodV_applyRule {pc : Schema → JVal → String → VRes (List ErrItem × JVal)}
    (hpc : GoodPC pc) (dfn : Rule) (v : JVal) (k : String) :
    GoodResV (applyRule pc dfn v k) := by
  unfold applyRule
  dsimp only
  generalize (match dfn.transform with | some f => f v | none => v) = w
  cases hvt : getValueType w with
  | none =>
      cases htc : typeConstraint dfn.type with
      | none => exact GoodErrs_nil
      | some ts => exact GoodErrs_singleton (by simp [promotedCodes])
  | some t =>
      cases htc : typeConstraint dfn.type with
      | none => exact goodV_applyRuleChecks hpc ..
      | some ts =>
          by_cases hc : ts.contains (vtName t) = true
          · simp only [hc, Bool.not_true, Bool.false_eq_true, if_false]
            exact goodV_applyRuleChecks hpc ..
          · simp only [Bool.not_eq_true] at hc
            simp only [hc, Bool.not_false, if_true]
            exact GoodErrs_singleton (by simp [promotedCodes])

/-- The code discipline for results carrying errors next to any payload. -/
def GoodResP {β : Type} : VRes (List ErrItem × β) → Prop
  | .ok p => GoodErrs p.1
  | .rulesErr i => GoodExc i
  | .dataErr _ => False
  | .fuel => True

theorem goodP_bind {β γ : Type} {x : VRes (List ErrItem × β)}
    {f : List ErrItem × β → VRes (List ErrItem × γ)} (hx : GoodResP x)
    (hf : ∀ p, GoodErrs p.1 → GoodResP (f p)) : GoodResP (VRes.bind x f) := by
  cases x with
  | ok p => exact hf p hx
  | dataErr i => exact hx.elim
  | rulesErr i => exact hx
  | fuel => trivial

theorem goodP_bind_errs {β : Type} {x : VRes (List ErrItem)}
    {f : List ErrItem → VRes (List ErrItem × β)} (hx : GoodResE x)
    (hf : ∀ es, GoodErrs es → GoodResP (f es)) : GoodResP (VRes.bind x f) := by
  cases x with
  | ok es => exact hf es hx
  | dataErr i => exact hx.elim
  | rulesErr i => exact hx
  | fuel => trivial

theorem goodV_toP {x : VRes (List ErrItem × JVal)} (h : GoodResV x) : GoodResP x := by
  cases x <;> exact h

theorem goodP_toV {x : VRes (List ErrItem × JVal)} (h : GoodResP x) : GoodResV x := by
  cases x <;> exact h

theorem goodE_wildHash {pc : Schema → JVal → String → VRes (List ErrItem × JVal)}
    (hpc : GoodPC pc) (hr : Option Rule) (key errKey : String) :
    GoodResE (match hr with
      | some r => VRes.bind (applyRule pc r (.jstr key) errKey) fun p => .ok p.1
      | none => .ok []) := by
  cases hr with
  | some r =>
      dsimp only
      have h := goodV_applyRule hpc r (.jstr key) errKey
      cases hx : applyRule pc r (.jstr key) errKey <;> rw [hx] at h <;>
        simp only [VRes.bind] <;> exact h
  | none => exact GoodErrs_nil

theorem goodP_wildApply {pc : Schema → JVal → String → VRes (List ErrItem × JVal)}
    (hpc : GoodPC pc) (hr sr : Option Rule) (pfx k : String) (v : JVal) :
    GoodResP (wildApply pc hr sr pfx k v) := by
  unfold wildApply
  apply goodP_bind_errs (goodE_wildHash hpc hr k (pfx ++ k ++ "#key"))
  intro hErrs hh
  cases sr with
  | some r =>
      apply goodP_bind (goodV_toP (goodV_applyRule hpc r v (pfx ++ k)))
      intro p hp
      exact GoodErrs_append hh hp
  | none => exact hh

theorem goodP_wildLoopObj {pc : Schema → JVal → String → VRes (List ErrItem × JVal)}
    (hpc : GoodPC pc) (hr sr : Option Rule) (pfx : String) :
    ∀ fields, GoodResP (wildLoopObj pc hr sr pfx fields)
  | [] => GoodErrs_nil
  | (k, v) :: rest => by
      unfold wildLoopObj
      split
      · apply goodP_bind (goodP_wildLoopObj hpc hr sr pfx rest)
        intro p hp
        exact hp
      · apply goodP_bind (goodP_wildApply hpc hr sr pfx k v)
        intro p hp
        apply goodP_bind (goodP_wildLoopObj hpc hr sr pfx rest)
        intro q hq
        exact GoodErrs_append hp hq

theorem goodP_wildLoopArr {pc : Schema → JVal → String → VRes (List ErrItem × JVal)}
    (hpc : GoodPC pc) (hr sr : Option Rule) (pfx : String) :
    ∀ es i, GoodResP (wildLoopArr pc hr sr pfx i es)
  | [], _ => GoodErrs_nil
  | v :: rest, i => by
      unfold wildLoopArr
      apply goodP_bind (goodP_wildApply hpc hr sr pfx (toString i) v)
      intro p hp
      apply goodP_bind (goodP_wildLoopArr hpc hr sr pfx rest (i + 1))
      intro q hq
      exact GoodErrs_append hp hq

theorem goodP_processWildcards {pc : Schema → JVal → String → VRes (List ErrItem × JVal)}
    (hpc : GoodPC pc) (rules : Schema) (data : JVal) (pfx : String) :
    GoodResV (processWildcards pc rules data pfx) := by
  unfold processWildcards
  dsimp only
  split
  · exact GoodErrs_nil
  · split
    · apply goodP_toV
      apply goodP_bind (goodP_wildLoopObj hpc _ _ pfx _)
      intro p hp
      exact hp
    · apply goodP_toV
      apply goodP_bind (goodP_wildLoopArr hpc _ _ pfx _ _)
      intro p hp
      exact hp
    · exact GoodErrs_nil

theorem goodErrs_enforceStrictMode (ambient : Bool) (rules : Schema) (data : JVal)
    (pfx : String) : GoodErrs (enforceStrictMode ambient rules data pfx) := by
  intro e he
  unfold enforceStrictMode at he
  split at he
  · split at he
    · rcases List.mem_filterMap.mp he with ⟨k, _, hk⟩
      split at hk
      · cases hk
      · cases hk
        simp [promotedCodes]
    all_goals cases he
  · cases he

theorem goodP_namedLoop {pc : Schema → JVal → String → VRes (List ErrItem × JVal)}
    (hpc : GoodPC pc) (pfx : String) :
    ∀ entries fields, GoodResP (namedLoop pc pfx entries fields)
  | [], _ => GoodErrs_nil
  | (key, ruleSchema) :: rest, fields => by
      unfold namedLoop
      dsimp only
      split
      · exact goodP_namedLoop hpc pfx rest fields
      · split
        · exact goodP_namedLoop hpc pfx rest fields
        · split
          · apply goodP_bind (goodV_toP (goodV_applyRule hpc ..))
            intro p hp
            apply goodP_bind (goodP_namedLoop hpc pfx rest _)
            intro q hq
            exact GoodErrs_append hp hq
          · split
            · apply goodP_bind (goodP_namedLoop hpc pfx rest _)
              intro q hq
              intro e he
              rcases List.mem_cons.mp he with rfl | h
              · simp [promotedCodes]
              · exact hq e h
            · exact goodP_namedLoop hpc pfx rest _

theorem goodP_processNamedRules {pc : Schema → JVal → String → VRes (List ErrItem × JVal)}
    (hpc : GoodPC pc) (rules : Schema) (data : JVal) (pfx : String) :
    GoodResV (processNamedRules pc rules data pfx) := by
  unfold processNamedRules
  split
  · apply goodP_toV
    apply goodP_bind (goodP_namedLoop hpc pfx _ _)
    intro p hp
    exact hp
  · exact GoodErrs_nil

theorem goodV_processRules :
    ∀ (n : Nat) (sm : Bool) (rules : Schema) (data : JVal) (pfx : String),
    GoodResV (processRules n sm rules data pfx) := by
  intro n
  induction n with
  | zero => intro sm rules data pfx; trivial
  | succ n ih =>
      intro sm rules data pfx
      have hpc : GoodPC (fun s v p => processRules n sm s v p) :=
        fun s v p => ih sm s v p
      unfold processRules
      apply goodP_toV
      apply goodP_bind (goodV_toP (goodP_processWildcards hpc rules data pfx))
      intro w hw
      split
      · exact hw
      · dsimp only
        apply goodP_bind (goodV_toP (goodP_processNamedRules hpc rules w.2 pfx))
        intro t ht
        exact GoodErrs_append (GoodErrs_append hw
          (goodErrs_enforceStrictMode sm rules w.2 pfx)) ht

/-!
Supporting lemmas: values stored under reserved (unsafe) key names pass
through the walker untouched.
-/

theorem VRes.bind_ok_inv {α β : Type} {x : VRes α} {f : α → VRes β} {b : β}
    (h : VRes.bind x f = .ok b) : ∃ a, x = .ok a ∧ f a = .ok b := by
  cases x with
  | ok a => exact ⟨a, rfl, h⟩
  | dataErr i => simp only [VRes.bind] at h; cases h
  | rulesErr i => simp only [VRes.bind] at h; cases h
  | fuel => simp only [VRes.bind] at h; cases h

theorem lookupStr_setKey_ne (k' k : String) (v : JVal) (hne : k' ≠ k) :
    ∀ fl, lookupStr (setKey fl k' v) k = lookupStr fl k
  | [] => by simp [setKey, lookupStr, hne]
  | (k0, v0) :: rest => by
      unfold setKey
      by_cases h0 : k0 = k'
      · simp only [h0, if_pos rfl]
        unfold lookupStr
        by_cases hk : k' = k
        · exact absurd hk hne
        · simp [hk, h0]
      · simp only [h0, ite_false]
        unfold lookupStr
        by_cases hk : k0 = k
        · simp [hk]
        · simp [hk, lookupStr_setKey_ne k' k v hne rest]

theorem wildLoopObj_unsafe {pc : Schema → JVal → String → VRes (List ErrItem × JVal)}
    {hr sr : Option Rule} {pfx : String} {k : String} (hk : isSafeKey k = false) :
    ∀ fields es fl', wildLoopObj pc hr sr pfx fields = .ok (es, fl') →
      lookupStr fl' k = lookupStr fields k := by
  intro fields
  induction fields with
  | nil =>
      intro es fl' h
      unfold wildLoopObj at h
      cases h
      rfl
  | cons e rest ih =>
      rcases e with ⟨k0, v0⟩
      intro es fl' h
      unfold wildLoopObj at h
      by_cases hs : isSafeKey k0 = true
      · rw [if_neg (by simp [hs])] at h
        have hne : k0 ≠ k := fun hEq => by rw [hEq, hk] at hs; cases hs
        rcases VRes.bind_ok_inv h with ⟨p, hw, h2⟩
        rcases VRes.bind_ok_inv h2 with ⟨q, hrest, h3⟩
        cases h3
        unfold lookupStr
        simp only [hne, ite_false]
        exact ih q.1 q.2 (by rw [hrest])
      · rw [if_pos (by simp [hs])] at h
        rcases VRes.bind_ok_inv h with ⟨q, hrest, h2⟩
        cases h2
        unfold lookupStr
        by_cases hke : k0 = k
        · simp [hke]
        · simp only [hke, ite_false]
          exact ih q.1 q.2 (by rw [hrest])

theorem namedLoop_unsafe {pc : Schema → JVal → String → VRes (List ErrItem × JVal)}
    {pfx : String} {k : String} (hk : isSafeKey k = false) :
    ∀ entries fields es fl', namedLoop pc pfx entries fields = .ok (es, fl') →
      lookupStr fl' k = lookupStr fields k := by
  intro entries
  induction entries with
  | nil =>
      intro fields es fl' h
      unfold namedLoop at h
      cases h
      rfl
  | cons e rest ih =>
      rcases e with ⟨key, ruleSchema⟩
      intro fields es fl' h
      unfold namedLoop at h
      by_cases hm : key = "@" ∨ key = "#" ∨ key = "*"
      · rw [if_pos hm] at h
        exact ih fields es fl' h
      · rw [if_neg hm] at h
        by_cases hs : isSafeKey key = true
        · rw [if_neg (by simp [hs])] at h
          have hne : key ≠ k := fun hEq => by rw [hEq, hk] at hs; cases hs
          generalize hd : (match ruleSchema.dflt with
            | some d => if !(hasOwnKey fields key) then setKey fields key d else fields
            | none => fields) = fields1 at h
          dsimp only at h
          have hf1 : lookupStr fields1 k = lookupStr fields k := by
            rw [← hd]
            match ruleSchema.dflt with
            | some d =>
                by_cases ho : hasOwnKey fields key
                · simp [ho]
                · simp only [ho, Bool.not_false, if_pos]
                  exact lookupStr_setKey_ne key k d hne fields
            | none => rfl
          rcases hlk : lookupStr fields1 key with _ | v
          · rw [hlk] at h
            by_cases hrq : ruleSchema.required = some true
            · rw [if_pos hrq] at h
              rcases VRes.bind_ok_inv h with ⟨q, hrest, h2⟩
              cases h2
              rw [ih fields1 q.1 q.2 (by rw [hrest])]
              exact hf1
            · rw [if_neg hrq] at h
              rw [ih fields1 es fl' h]
              exact hf1
          · rw [hlk] at h
            rcases VRes.bind_ok_inv h with ⟨p, ha, h2⟩
            generalize hf2 : (if ruleSchema.applyTransformed = some true then setKey fields1 key p.2
              else if ruleSchema.transform.isNone then setKey fields1 key p.2
              else fields1) = fields2 at h2
            have hf2k : lookupStr fields2 k = lookupStr fields1 k := by
              rw [← hf2]
              by_cases h1 : ruleSchema.applyTransformed = some true
              · simp only [h1, if_pos]
                exact lookupStr_setKey_ne key k p.2 hne fields1
              · simp only [h1, ite_false]
                by_cases h2' : ruleSchema.transform.isNone
                · simp only [h2', if_pos]
                  exact lookupStr_setKey_ne key k p.2 hne fields1
                · simp [h2']
            rcases VRes.bind_ok_inv h2 with ⟨q, hrest, h3⟩
            cases h3
            rw [ih fields2 q.1 q.2 (by rw [hrest]), hf2k]
            exact hf1
        · rw [if_pos (by simp [hs])] at h
          exact ih fields es fl' h

/-- The named-field pass ignores unsafe schema field names entirely: it
computes the same result as on the schema with those entries removed. -/
theorem namedLoop_filter_safe {pc : Schema → JVal → String → VRes (List ErrItem × JVal)}
    (pfx : String) :
    ∀ entries fields, namedLoop pc pfx entries fields =
      namedLoop pc pfx (entries.filter (fun e => isSafeKey e.1)) fields := by
  intro entries
  induction entries with
  | nil => intro fields; rfl
  | cons e rest ih =>
      rcases e with ⟨key, ruleSchema⟩
      intro fields
      by_cases hs : isSafeKey key = true
      · rw [List.filter_cons_of_pos (by simpa using hs)]
        by_cases hm : key = "@" ∨ key = "#" ∨ key = "*"
        · rw [namedLoop, if_pos hm]
          conv_rhs => rw [namedLoop, if_pos hm]
          exact ih fields
        · rw [namedLoop, if_neg hm, if_neg (by simp [hs])]
          conv_rhs => rw [namedLoop, if_neg hm, if_neg (by simp [hs])]
          simp only [ih]
      · rw [List.filter_cons_of_neg (by simpa using hs)]
        by_cases hm : key = "@" ∨ key = "#" ∨ key = "*"
        · rw [namedLoop, if_pos hm]
          exact ih fields
        · rw [namedLoop, if_neg hm, if_pos (by simp [hs])]
          exact ih fields

/-- The wildcard pass skips an unsafe input key: its value is carried over
unchanged and neither the `#` rule nor the `*` rule runs for it. -/
theorem wildLoopObj_skip_unsafe {pc : Schema → JVal → String → VRes (List ErrItem × JVal)}
    (hr sr : Option Rule) (pfx : String) {k : String} (v : JVal)
    (hk : isSafeKey k = false) (rest : List (String × JVal)) :
    wildLoopObj pc hr sr pfx ((k, v) :: rest) =
      VRes.bind (wildLoopObj pc hr sr pfx rest) fun r => .ok (r.1, (k, v) :: r.2) := by
  rw [wildLoopObj, if_pos (by simp [hk])]

/-- The child processor as the schema walker builds it: `processRules` at
one fuel step less (the `processChildren` closure of `validator.ts`). -/
def pcDepth (n : Nat) (sm : Bool) : Schema → JVal → String → VRes (List ErrItem × JVal) :=
  fun s v p => processRules n sm s v p

theorem VRes.bind_ok {α : Type} (x : VRes α) : VRes.bind x (fun a => .ok a) = x := by
  cases x <;> rfl

theorem processWildcards_unsafe {pc : Schema → JVal → String → VRes (List ErrItem × JVal)}
    {rules : Schema} {fields : List (String × JVal)} {pfx : String} {k : String}
    {es : List ErrItem} {d : JVal} (hk : isSafeKey k = false)
    (h : processWildcards pc rules (.jobj fields) pfx = .ok (es, d)) :
    ∃ fl', d = .jobj fl' ∧ lookupStr fl' k = lookupStr fields k := by
  unfold processWildcards at h
  dsimp only at h
  split at h
  · cases h
    exact ⟨fields, rfl, rfl⟩
  · rcases VRes.bind_ok_inv h with ⟨q, hloop, h2⟩
    cases h2
    exact ⟨q.2, rfl, wildLoopObj_unsafe hk fields q.1 q.2 (by rw [hloop])⟩

theorem processNamedRules_unsafe {pc : Schema → JVal → String → VRes (List ErrItem × JVal)}
    {rules : Schema} {fields : List (String × JVal)} {pfx : String} {k : String}
    {es : List ErrItem} {d : JVal} (hk : isSafeKey k = false)
    (h : processNamedRules pc rules (.jobj fields) pfx = .ok (es, d)) :
    ∃ fl', d = .jobj fl' ∧ lookupStr fl' k = lookupStr fields k := by
  unfold processNamedRules at h
  rcases VRes.bind_ok_inv h with ⟨q, hloop, h2⟩
  cases h2
  exact ⟨q.2, rfl, namedLoop_unsafe hk rules.1 fields q.1 q.2 (by rw [hloop])⟩

theorem processRules_unsafe {n : Nat} {sm : Bool} {rules : Schema}
    {fields : List (String × JVal)} {pfx : String} {k : String}
    {es : List ErrItem} {d : JVal} (hk : isSafeKey k = false)
    (h : processRules (n + 1) sm rules (.jobj fields) pfx = .ok (es, d)) :
    ∃ fl', d = .jobj fl' ∧ lookupStr fl' k = lookupStr fields k := by
  unfold processRules at h
  dsimp only at h
  rcases VRes.bind_ok_inv h with ⟨w, hw, h2⟩
  rcases processWildcards_unsafe hk (by rw [hw] : processWildcards _ rules (.jobj fields) pfx = .ok (w.1, w.2)) with ⟨fl1, hfl1, hlk1⟩
  rcases VRes.bind_ok_inv h2 with ⟨t, ht, h3⟩
  cases h3
  have := processNamedRules_unsafe hk
    (by rw [hfl1] at ht; exact (by rw [ht] : processNamedRules _ rules (.jobj fl1) pfx = .ok (t.1, t.2)))
  rcases this with ⟨fl2, hfl2, hlk2⟩
  exact ⟨fl2, hfl2, by rw [hlk2, hlk1]⟩

/-!
Claim theorems.
-/

/-- C7: Schema normalization (`ODVRules.normalize`) is idempotent:
`normalize(normalize(S))` equals `normalize(S)`.  The normalized form has
every `type` attribute as an array (never a bare string, a falsy type
becoming `null`) with `'integer'` added to an array containing `'number'`
only when not already present — `isNormalizedSchema` states exactly this
shape, recursively through `children` and every `per_type` entry — and an
array containing `'number'` is extended with `'integer'` exactly when
`'integer'` is missing. -/
theorem normalize_idempotent_and_shape :
    (∀ s : Schema, rulesNormalize (rulesNormalize s) = rulesNormalize s) ∧
    (∀ s : Schema, isNormalizedSchema (rulesNormalize s) = true) ∧
    (∀ ts : List String, "number" ∈ ts →
      normalizeType (some (.many ts)) =
        some (.many (if "integer" ∈ ts then ts else ts ++ ["integer"]))) := by
  refine ⟨?_, ?_, ?_⟩
  · intro s
    rw [rulesNormalize_eq_normalizeSchema, rulesNormalize_eq_normalizeSchema]
    exact normalizeSchema_idem s
  · intro s
    rw [rulesNormalize_eq_normalizeSchema]
    exact isNormalizedEntries_normalizeEntries s.1
  · intro ts h
    by_cases hi : "integer" ∈ ts
    · simp [normalizeType, h, hi]
    · simp [normalizeType, h, hi]

/-- C7 witness: a concrete instance of the integer-extension clause. -/
theorem normalize_idempotent_and_shape_witness :
    normalizeType (some (.many ["number"])) = some (.many ["number", "integer"]) := by
  have h := normalize_idempotent_and_shape.2.2 ["number"] (by decide)
  simpa using h

/-- C5: When an object level is processed, effective strict mode is the
per-level `@.strict` option when present and the ambient `strictMode`
otherwise, whose default is `true`; under it, every own input key that is
not an explicitly named schema field yields `NOT_ALLOWED` at its path, and
the presence of a `*` wildcard rule changes nothing (it grants no
admission); with strict mode off the check contributes no error.  The
spec's concrete example behaves as stated through the full `safeParse`
pipeline. -/
theorem strict_mode_rejects_undeclared_keys :
    DEFAULT_OPTIONS.strictMode = true ∧
    (∀ b ambient : Bool, effectiveStrict (some (some b)) ambient = b) ∧
    (∀ ambient : Bool,
      effectiveStrict none ambient = ambient ∧
      effectiveStrict (some none) ambient = ambient) ∧
    (∀ (ambient : Bool) (rules : Schema) (fields : List (String × JVal)) (pfx k : String),
      effectiveStrict rules.2 ambient = true →
      (fields.map Prod.fst).contains k = true →
      (definedKeys rules).contains k = false →
      (⟨pfx ++ k, .NOT_ALLOWED, []⟩ : ErrItem) ∈
        enforceStrictMode ambient rules (.jobj fields) pfx) ∧
    (∀ (ambient : Bool) (rules : Schema) (d : JVal) (pfx : String),
      effectiveStrict rules.2 ambient = false →
      enforceStrictMode ambient rules d pfx = []) ∧
    (∀ (ambient : Bool) (entries : List (String × Rule)) (o : Option (Option Bool))
        (r : Rule) (d : JVal) (pfx : String),
      enforceStrictMode ambient (("*", r) :: entries, o) d pfx =
        enforceStrictMode ambient (entries, o) d pfx) ∧
    (safeParse 20 ([("name", Rule.empty.withType (.one "string"))], none) true
      (.jobj [("name", .jstr "Alice"), ("extra", .jnum (.fin 1))]) "" =
      .ok (.failure [⟨"extra", .NOT_ALLOWED, []⟩])) ∧
    (safeParse 20 ([("name", Rule.empty.withType (.one "string"))], none) false
      (.jobj [("name", .jstr "Alice"), ("extra", .jnum (.fin 1))]) "" =
      .ok (.success (.jobj [("name", .jstr "Alice"), ("extra", .jnum (.fin 1))]))) := by
  refine ⟨rfl, fun b ambient => rfl, fun ambient => ⟨rfl, rfl⟩, ?_, ?_, ?_, by decide, by decide⟩
  · intro ambient rules fields pfx k hstrict hmem hdef
    unfold enforceStrictMode
    rw [if_pos hstrict]
    refine List.mem_filterMap.mpr ⟨k, by simpa using hmem, ?_⟩
    rw [if_neg (by rw [hdef]; simp)]
  · intro ambient rules d pfx hstrict
    unfold enforceStrictMode
    rw [if_neg (by simp [hstrict])]
  · intro ambient entries o r d pfx
    have hdk : definedKeys (("*", r) :: entries, o) = definedKeys (entries, o) := by
      unfold definedKeys
      rw [List.map_cons, List.filter_cons]
      norm_num
    unfold enforceStrictMode
    rw [hdk]

/-- C5 witness: the strict check at a concrete undeclared key. -/
theorem strict_mode_rejects_undeclared_keys_witness :
    (⟨"extra", .NOT_ALLOWED, []⟩ : ErrItem) ∈
      enforceStrictMode true ([("name", Rule.empty)], none)
        (.jobj [("extra", .jnum (.fin 1))]) "" :=
  strict_mode_rejects_undeclared_keys.2.2.2.1 true ([("name", Rule.empty)], none)
    [("extra", .jnum (.fin 1))] "" "extra" (by decide) (by decide) (by decide)

/-- C6: A non-finite number (NaN, an infinity) maps to no ValueType; when
the (possibly transformed) value is such a number, a rule with a type
constraint records a single `TYPE_MISMATCH` (actual `NaN/Infinity`) and
evaluation of the field stops, while a rule without a type constraint
records nothing and every remaining check is skipped — either way the value
is returned. -/
theorem nonfinite_number_rule_evaluation :
    (∀ n : JNum, getValueType (.jnum n) = none ↔ n = .nan ∨ n = .inf ∨ n = .ninf) ∧
    (∀ (pc : Schema → JVal → String → VRes (List ErrItem × JVal)) (dfn : Rule)
        (v w : JVal) (k : String),
      (match dfn.transform with | some f => f v | none => v) = w →
      getValueType w = none →
      applyRule pc dfn v k =
        .ok ((match typeConstraint dfn.type with
          | some ts => [⟨k, .TYPE_MISMATCH,
              [("expected", .jstr (joinOr ts)), ("actual", .jstr "NaN/Infinity")]⟩]
          | none => []), w)) := by
  constructor
  · intro n
    cases n with
    | nan => simp [getValueType]
    | inf => simp [getValueType]
    | ninf => simp [getValueType]
    | fin q => simp [getValueType]
  · intro pc dfn v w k htr hvt
    unfold applyRule
    dsimp only
    rw [htr, hvt]
    cases htc : typeConstraint dfn.type <;> simp [htc]

/-- C6 witness: NaN against a numeric type constraint and against no
constraint. -/
theorem nonfinite_number_rule_evaluation_witness :
    applyRule (pcDepth 5 true) (Rule.empty.withType (.many ["number", "integer"]))
      (.jnum .nan) "val" =
      .ok ([⟨"val", .TYPE_MISMATCH,
        [("expected", .jstr (joinOr ["number", "integer"])),
          ("actual", .jstr "NaN/Infinity")]⟩], .jnum .nan) :=
  nonfinite_number_rule_evaluation.2 (pcDepth 5 true)
    (Rule.empty.withType (.many ["number", "integer"])) (.jnum .nan) (.jnum .nan)
    "val" rfl rfl

/-- C8: `safeParse` is `parse` with a thrown `ODVException` (a data-validation
failure) converted into a `{ success: false, errors }` result carrying the
full error map; it never surfaces a data-validation failure as a thrown
exception, and a thrown `ODVRulesException` (schema-definition error) is
never downgraded — it propagates, as the concrete mid-validation rules
exception shows end to end. -/
theorem safeParse_never_throws_data_errors :
    (∀ (fuel : Nat) (rules : Schema) (sm : Bool) (input : JVal) (pfx : String) (d : JVal),
      parse fuel rules sm input pfx = .ok d ↔
        safeParse fuel rules sm input pfx = .ok (.success d)) ∧
    (∀ (fuel : Nat) (rules : Schema) (sm : Bool) (input : JVal) (pfx : String)
        (e : List ErrItem),
      parse fuel rules sm input pfx = .dataErr e ↔
        safeParse fuel rules sm input pfx = .ok (.failure e)) ∧
    (∀ (fuel : Nat) (rules : Schema) (sm : Bool) (input : JVal) (pfx : String)
        (i : List ErrItem),
      parse fuel rules sm input pfx = .rulesErr i ↔
        safeParse fuel rules sm input pfx = .rulesErr i) ∧
    (∀ (fuel : Nat) (rules : Schema) (sm : Bool) (input : JVal) (pfx : String)
        (e : List ErrItem),
      safeParse fuel rules sm input pfx ≠ .dataErr e) ∧
    (safeParse 20 ([("val", (Rule.empty.withType (.one "boolean")).withMin 1)], none) true
      (.jobj [("val", .jbool true)]) "" =
      .rulesErr [⟨"val", .MIN_MAX_NOT_APPLICABLE, [("actual", .jstr "boolean")]⟩]) := by
  refine ⟨?_, ?_, ?_, ?_, by decide⟩ <;>
    intro fuel rules sm input pfx x <;>
    rcases hp : parse fuel rules sm input pfx with d' | e' | i' | _ <;>
    simp [safeParse, hp]

/-- C8 witness: the data-failure conversion at a concrete failing input. -/
theorem safeParse_never_throws_data_errors_witness :
    safeParse 20 ([("name", (Rule.empty.withType (.one "string")).withRequired true)], none)
      true (.jobj []) "" = .ok (.failure [⟨"name", .REQUIRED, []⟩]) :=
  (safeParse_never_throws_data_errors.2.1 20
    ([("name", (Rule.empty.withType (.one "string")).withRequired true)], none)
    true (.jobj []) "" [⟨"name", .REQUIRED, []⟩]).mp (by decide)

/-- C10: When the data at a schema level is an array, `processRules` runs
only the wildcard/key pass (`#` and `*` over the indices); the strict-mode
check, default insertion, rule application for named fields and required
checks are skipped, so without `#` and `*` the level is a no-op, and a
required named field yields no `REQUIRED` error for an array container. -/
theorem array_level_wildcards_only :
    (∀ (n : Nat) (sm : Bool) (rules : Schema) (xs : List JVal) (pfx : String),
      processRules (n + 1) sm rules (.jarr xs) pfx =
        processWildcards (pcDepth n sm) rules (.jarr xs) pfx) ∧
    (∀ (n : Nat) (sm : Bool) (rules : Schema) (xs : List JVal) (pfx : String),
      getRule rules "#" = none → getRule rules "*" = none →
      processRules (n + 1) sm rules (.jarr xs) pfx = .ok ([], .jarr xs)) ∧
    (processRules 10 true
      ([("name", (Rule.empty.withType (.many ["string"])).withRequired true)], none)
      (.jarr [.jnum (.fin 1)]) "" = .ok ([], .jarr [.jnum (.fin 1)])) := by
  refine ⟨?_, ?_, by decide⟩
  · intro n sm rules xs pfx
    show VRes.bind (processWildcards (pcDepth n sm) rules (.jarr xs) pfx)
      (fun w => .ok w) = _
    exact VRes.bind_ok _
  · intro n sm rules xs pfx h1 h2
    show VRes.bind (processWildcards (pcDepth n sm) rules (.jarr xs) pfx)
      (fun w => .ok w) = _
    unfold processWildcards
    rw [getRule] at h1 h2
    unfold getRule
    rw [h1, h2]
    rfl

/-- C10 witness: the no-wildcard clause at a concrete schema and array. -/
theorem array_level_wildcards_only_witness :
    processRules 4 true ([("name", Rule.empty.withRequired true)], none)
      (.jarr [.jstr "x"]) "" = .ok ([], .jarr [.jstr "x"]) :=
  array_level_wildcards_only.2.1 3 true ([("name", Rule.empty.withRequired true)], none)
    [.jstr "x"] "" rfl rfl

/-- C2 counterexample: the claim says an effective `children` constraint on
a non-object/non-array value raises a schema-definition error unless the
declared type set is restricted to object/array only.  Here the declared
set is `['string', 'object']` — not restricted to object/array — the value
is a string, `children` is in effect, and validation succeeds with no error
of any kind: `checkChildren` raises only when the type set is absent or
recursable-only, the inverse of the claimed condition. -/
theorem children_mixed_type_silent_cx :
    safeParse 20 ([("val", (Rule.empty.withType (.many ["string", "object"])).withChildren
        ([("b", Rule.empty.withType (.one "string"))], none))], none) true
      (.jobj [("val", .jstr "x")]) "" =
      .ok (.success (.jobj [("val", .jstr "x")])) := by decide

/-- C2 (amended): when `children` is in effect and the non-null value's
resolved type is neither object nor array, `checkChildren` raises the
schema-definition error exactly when the rule declares no usable type set
(absent or `null`) or when every declared type is object/array; when the
declared set names at least one non-recursable type, no recursion occurs
and no error is raised.  When the declared set is restricted to object and
array only and the value resolves to another type, rule evaluation stops
earlier with a `TYPE_MISMATCH` data error (an error is raised, and the
children step is never reached). -/
theorem children_type_condition :
    (∀ (pc : Schema → JVal → String → VRes (List ErrItem × JVal)) (v : JVal) (t : VT)
        (ch : Schema) (dt : Option TypeF) (k : String),
      ¬(t = .object ∨ t = .array) →
      checkChildren pc v t ch dt k =
        (if childrenThrowCond dt then
          .rulesErr [⟨k, .CHILDREN_TYPE_ERROR, [("actual", .jstr (vtName t))]⟩]
        else .ok ([], v))) ∧
    childrenThrowCond none = true ∧
    (∀ ts : List String, childrenThrowCond (some (.many ts)) = false ↔
      ∃ x ∈ ts, ¬(x = "object" ∨ x = "array")) ∧
    (∀ (pc : Schema → JVal → String → VRes (List ErrItem × JVal)) (dfn : Rule)
        (v : JVal) (k : String) (ts : List String) (t : VT),
      dfn.transform = none → dfn.type = some (.many ts) →
      getValueType v = some t → ts.contains (vtName t) = false →
      applyRule pc dfn v k = .ok ([⟨k, .TYPE_MISMATCH,
        [("expected", .jstr (joinOr ts)), ("actual", .jstr (vtName t))]⟩], v)) := by
  refine ⟨?_, rfl, ?_, ?_⟩
  · intro pc v t ch dt k ht
    unfold checkChildren
    rw [if_neg ht]
  · intro ts
    simp [childrenThrowCond, List.length_eq_zero, List.filter_eq_nil_iff]
  · intro pc dfn v k ts t htr hty hvt hc
    have hc' : ¬ (vtName t ∈ ts) := by simpa using hc
    unfold applyRule
    dsimp only
    rw [htr, hvt, hty]
    simp [typeConstraint, hc']

/-- C2 witness: the amended condition at concrete inputs — an object/array
only type set stops at the type mismatch. -/
theorem children_type_condition_witness :
    applyRule (pcDepth 5 true)
      ((Rule.empty.withChildren ([("b", Rule.empty)], none)).withType (.many ["object", "array"]))
      (.jstr "s") "k" =
      .ok ([⟨"k", .TYPE_MISMATCH,
        [("expected", .jstr (joinOr ["object", "array"])), ("actual", .jstr (vtName .string))]⟩],
        .jstr "s") :=
  children_type_condition.2.2.2 (pcDepth 5 true)
    ((Rule.empty.withChildren ([("b", Rule.empty)], none)).withType (.many ["object", "array"]))
    (.jstr "s") "k" ["object", "array"] .string rfl rfl rfl (by decide)

/-- C3 counterexample: the claim says `CHILDREN_TYPE_ERROR` is surfaced as
an entry of the data-validation errors map rather than as a
schema-definition exception.  At this concrete schema and input the whole
pipeline throws the rules exception (`ODVRulesException`) carrying the
`CHILDREN_TYPE_ERROR` entry — nothing is returned as a `success: false`
errors map. -/
theorem children_type_error_is_promoted_cx :
    safeParse 20 ([("val", Rule.empty.withChildren ([("b", Rule.empty)], none))], none) true
      (.jobj [("val", .jstr "abc")]) "" =
      .rulesErr [⟨"val", .CHILDREN_TYPE_ERROR, [("actual", .jstr "string")]⟩] := by decide

/-- C3 (amended): exactly three data-validation codes are promoted to
schema-definition exceptions when detected — `MIN_MAX_NOT_APPLICABLE`,
`IN_NOT_APPLICABLE` and `CHILDREN_TYPE_ERROR`; every exception the engine
throws carries only those codes, every collected errors-map entry carries
one of the other nine codes, the engine itself never throws a
data-validation exception mid-walk, and each of the three promotions is
reachable. -/
theorem promoted_codes_exactly_three :
    (∀ (n : Nat) (sm : Bool) (s : Schema) (d : JVal) (p : String) (info : List ErrItem),
      processRules n sm s d p = .rulesErr info → ∀ e ∈ info, e.code ∈ promotedCodes) ∧
    (∀ (n : Nat) (sm : Bool) (s : Schema) (d : JVal) (p : String)
        (es : List ErrItem) (d' : JVal),
      processRules n sm s d p = .ok (es, d') → ∀ e ∈ es, e.code ∉ promotedCodes) ∧
    (∀ (n : Nat) (sm : Bool) (s : Schema) (d : JVal) (p : String) (i : List ErrItem),
      processRules n sm s d p ≠ .dataErr i) ∧
    (applyRule (pcDepth 5 true) ((Rule.empty.withType (.many ["boolean"])).withMin 1)
      (.jbool true) "val" =
      .rulesErr [⟨"val", .MIN_MAX_NOT_APPLICABLE, [("actual", .jstr "boolean")]⟩]) ∧
    (applyRule (pcDepth 5 true) ((Rule.empty.withType (.many ["object"])).withIn [.jstr "a"])
      (.jobj []) "val" = .rulesErr [⟨"val", .IN_NOT_APPLICABLE, []⟩]) ∧
    (applyRule (pcDepth 5 true) (Rule.empty.withChildren ([("b", Rule.empty)], none))
      (.jstr "abc") "val" =
      .rulesErr [⟨"val", .CHILDREN_TYPE_ERROR, [("actual", .jstr "string")]⟩]) := by
  refine ⟨?_, ?_, ?_, by decide, by decide, by decide⟩
  · intro n sm s d p info h
    have g := goodV_processRules n sm s d p
    rw [h] at g
    exact g
  · intro n sm s d p es d' h
    have g := goodV_processRules n sm s d p
    rw [h] at g
    exact g
  · intro n sm s d p i h
    have g := goodV_processRules n sm s d p
    rw [h] at g
    exact g

/-- C3 witness: the exception-code discipline at a concrete throwing run. -/
theorem promoted_codes_exactly_three_witness :
    ∀ e ∈ [(⟨"val", .MIN_MAX_NOT_APPLICABLE, [("actual", .jstr "boolean")]⟩ : ErrItem)],
      e.code ∈ promotedCodes :=
  promoted_codes_exactly_three.1 10 true
    ([("val", (Rule.empty.withType (.many ["boolean"])).withMin 1)], none)
    (.jobj [("val", .jbool true)]) "" _ (by decide)

/-- C4 counterexample: the claim says a recorded type mismatch is the only
short-circuit and that otherwise the bound, membership, pattern and
children checks all run.  For a null value no type mismatch is recorded,
yet no check runs: the rule `{ in: ['a'] }` yields no error on `null`,
although `checkInList` itself — had it run — would have recorded
`VALUE_NOT_IN_LIST` for this very value. -/
theorem null_value_skips_checks_cx :
    applyRule (pcDepth 5 true) (Rule.empty.withIn [.jstr "a"]) .jnull "val" =
      .ok ([], .jnull) ∧
    checkInList .jnull .nullt [.jstr "a"] none "val" =
      .ok [⟨"val", .VALUE_NOT_IN_LIST, []⟩] :=
  ⟨by decide, by decide⟩

/-- C4 (amended): within one field, a recorded type mismatch is terminal —
it stops all remaining checks and returns the (possibly transformed) value
as the sole error source; for a non-null value of resolved type `t` that
passes the (possibly absent) type check, the bound, membership,
pattern/format and children checks run independently on the same inputs and
the call's errors are exactly the concatenation of their four
contributions (null values and untyped non-finite numbers skip the checks
by the evaluator's guards); all four checks can contribute in one call, and
across distinct fields every error is collected before any failure is
surfaced. -/
theorem applyRule_error_policy :
    (∀ (pc : Schema → JVal → String → VRes (List ErrItem × JVal)) (dfn : Rule)
        (v w : JVal) (t : VT) (ts : List String) (k : String),
      (match dfn.transform with | some f => f v | none => v) = w →
      getValueType w = some t →
      typeConstraint dfn.type = some ts → ts.contains (vtName t) = false →
      applyRule pc dfn v k = .ok ([⟨k, .TYPE_MISMATCH,
        [("expected", .jstr (joinOr ts)), ("actual", .jstr (vtName t))]⟩], w)) ∧
    (∀ (pc : Schema → JVal → String → VRes (List ErrItem × JVal)) (dfn : Rule)
        (v w : JVal) (t : VT) (k : String) (e1 e2 e3 e4 : List ErrItem) (v4 : JVal),
      (match dfn.transform with | some f => f v | none => v) = w →
      getValueType w = some t →
      (∀ ts, typeConstraint dfn.type = some ts → ts.contains (vtName t) = true) →
      w ≠ .jnull →
      (if (effAttr (lookupStr dfn.perType (vtName t)) Rule.min dfn).isSome ||
          (effAttr (lookupStr dfn.perType (vtName t)) Rule.max dfn).isSome then
        checkMinMax w t (effAttr (lookupStr dfn.perType (vtName t)) Rule.min dfn)
          (effAttr (lookupStr dfn.perType (vtName t)) Rule.max dfn) dfn.type k
      else .ok []) = .ok e1 →
      (match effAttr (lookupStr dfn.perType (vtName t)) Rule.inList dfn with
       | some l => checkInList w t l
           (effAttr (lookupStr dfn.perType (vtName t)) Rule.inPublic dfn) k
       | none => .ok []) = .ok e2 →
      (if (effAttr (lookupStr dfn.perType (vtName t)) Rule.pattern dfn).isSome ||
          (effAttr (lookupStr dfn.perType (vtName t)) Rule.special dfn).isSome then
        checkPattern w t (effAttr (lookupStr dfn.perType (vtName t)) Rule.pattern dfn)
          (effAttr (lookupStr dfn.perType (vtName t)) Rule.special dfn) k
      else .ok []) = .ok e3 →
      (match effAttr (lookupStr dfn.perType (vtName t)) Rule.children dfn with
       | some c => checkChildren pc w t c dfn.type k
       | none => .ok ([], w)) = .ok (e4, v4) →
      applyRule pc dfn v k = .ok (e1 ++ e2 ++ e3 ++ e4, v4)) ∧
    (applyRule (pcDepth 5 false)
      (((((Rule.empty.withType (.many ["array"])).withMin 5).withIn
        [.jstr "a"]).withPattern (.re (fun _ => false))).withChildren
        ([("*", Rule.empty.withType (.many ["number"]))], none))
      (.jarr [.jstr "z"]) "val" =
      .ok ([⟨"val", .MIN_VIOLATION, [("min", .jnum (.fin 5)), ("actual", .jnum (.fin 1))]⟩,
        ⟨"val", .ARRAY_ELEMENT_NOT_IN_LIST, []⟩,
        ⟨"val", .PATTERN_MISMATCH, []⟩,
        ⟨"val.0", .TYPE_MISMATCH,
          [("expected", .jstr "number"), ("actual", .jstr "string")]⟩],
        .jarr [.jstr "z"])) ∧
    (safeParse 20 ([("a", (Rule.empty.withType (.one "string")).withRequired true),
        ("b", (Rule.empty.withType (.one "string")).withRequired true)], none) true
      (.jobj []) "" =
      .ok (.failure [⟨"a", .REQUIRED, []⟩, ⟨"b", .REQUIRED, []⟩])) := by
  refine ⟨?_, ?_, by decide, by decide⟩
  · intro pc dfn v w t ts k htr hvt htc hc
    have hc' : ¬ (vtName t ∈ ts) := by simpa using hc
    unfold applyRule
    dsimp only
    rw [htr, hvt, htc]
    simp [hc']
  · intro pc dfn v w t k e1 e2 e3 e4 v4 htr hvt hty hnn h1 h2 h3 h4
    have hchecks : applyRuleChecks pc dfn w t k = .ok (e1 ++ e2 ++ e3 ++ e4, v4) := by
      unfold applyRuleChecks
      dsimp only
      rw [if_neg hnn, h1]
      simp only [VRes.bind]
      rw [h2]
      try simp only [VRes.bind]
      try rw [h3]
      try simp only [VRes.bind]
      try rw [h4]
      try simp only [VRes.bind]
    unfold applyRule
    dsimp only
    rw [htr, hvt]
    cases htc : typeConstraint dfn.type with
    | none => exact hchecks
    | some ts =>
        dsimp only
        rw [hty ts htc]
        simp only [Bool.not_true]
        rw [if_neg (by simp)]
        exact hchecks

/-- C4 witness: the independent-checks decomposition at a concrete rule
with a bound violation and a membership violation in the same call. -/
theorem applyRule_error_policy_witness :
    applyRule (pcDepth 5 true) ((Rule.empty.withMin 5).withIn [.jstr "a"])
      (.jstr "z") "val" =
      .ok ([⟨"val", .MIN_VIOLATION, [("min", .jnum (.fin 5)), ("actual", .jnum (.fin 1))]⟩] ++
        [⟨"val", .VALUE_NOT_IN_LIST, []⟩] ++ [] ++ [], .jstr "z") :=
  applyRule_error_policy.2.1 (pcDepth 5 true) ((Rule.empty.withMin 5).withIn [.jstr "a"])
    (.jstr "z") (.jstr "z") .string "val"
    [⟨"val", .MIN_VIOLATION, [("min", .jnum (.fin 5)), ("actual", .jnum (.fin 1))]⟩]
    [⟨"val", .VALUE_NOT_IN_LIST, []⟩] [] [] (.jstr "z")
    rfl rfl (by intro ts h; cases h) (by decide) (by decide) (by decide) (by decide) (by decide)

/-- C9: The reserved key names `__proto__`, `constructor` and `prototype`
are excluded on both sides: at an object level, processing leaves the value
stored under such an input key untouched (it is neither validated, nor
transformed, nor recursed into — the whole subtree passes through
unchanged, so an attacker-controlled payload under such a key is never
written anywhere by the engine); the named-field pass computes the same
result as if unsafe-named schema fields were absent (so no rule
application, no default write and no `REQUIRED` for them); and the
wildcard/key-name pass steps over an unsafe input key without running `#`
or `*`. -/
theorem reserved_keys_excluded :
    (∀ (n : Nat) (sm : Bool) (rules : Schema) (fields : List (String × JVal))
        (pfx k : String) (es : List ErrItem) (d : JVal),
      isSafeKey k = false →
      processRules (n + 1) sm rules (.jobj fields) pfx = .ok (es, d) →
      ∃ fl', d = .jobj fl' ∧ lookupStr fl' k = lookupStr fields k) ∧
    (∀ (pc : Schema → JVal → String → VRes (List ErrItem × JVal)) (pfx : String)
        (entries : List (String × Rule)) (fields : List (String × JVal)),
      namedLoop pc pfx entries fields =
        namedLoop pc pfx (entries.filter fun e => isSafeKey e.1) fields) ∧
    (∀ (pc : Schema → JVal → String → VRes (List ErrItem × JVal))
        (hr sr : Option Rule) (pfx k : String) (v : JVal)
        (rest : List (String × JVal)),
      isSafeKey k = false →
      wildLoopObj pc hr sr pfx ((k, v) :: rest) =
        VRes.bind (wildLoopObj pc hr sr pfx rest) fun r => .ok (r.1, (k, v) :: r.2)) ∧
    (isSafeKey "__proto__" = false ∧ isSafeKey "constructor" = false ∧
      isSafeKey "prototype" = false) := by
  refine ⟨?_, ?_, ?_, by decide, by decide, by decide⟩
  · intro n sm rules fields pfx k es d hk h
    exact processRules_unsafe hk h
  · intro pc pfx entries fields
    exact namedLoop_filter_safe pfx entries fields
  · intro pc hr sr pfx k v rest hk
    exact wildLoopObj_skip_unsafe hr sr pfx v hk rest

/-- C9 witness: an attacker-controlled nested object under `__proto__`
passes through a validating run byte-for-byte untouched. -/
theorem reserved_keys_excluded_witness :
    ∃ fl', (JVal.jobj [("__proto__", .jobj [("polluted", .jbool true)])]) = .jobj fl' ∧
      lookupStr fl' "__proto__" =
        lookupStr [("__proto__", JVal.jobj [("polluted", .jbool true)])] "__proto__" :=
  reserved_keys_excluded.1 9 false
    ([("*", Rule.empty.withChildren ([("x", Rule.empty.withDefault (.jnum (.fin 1)))], none))], none)
    [("__proto__", .jobj [("polluted", .jbool true)])] "" "__proto__" [] _ (by decide) (by decide)
/-!
The caller-cell invariant: reference-frame reasoning for the heap model.
`HInv r h` says the caller's cell `r` lies below the allocation frontier and
no cell of the heap (the cell at `r` included) stores a reference to `r`.
`HSchemaSafe r s` says the schema holds no reference to `r` either: no
`default` value is (or contains, via its cell) a reference to `r`, and no
transform callback can return a value referring to `r`. Under these two
conditions every address the engine ever writes is distinct from `r`, so
the binding of `r` survives a whole validation call — while cells
*reachable from* `r`, cells owned by the schema's shared `default` objects,
and (absent the safety condition) even `r` itself are mutated in place: see
the C1 counterexample.
-/

namespace HM

/-- The value holds no reference to the cell `r`. -/
def HVal.avoids (r : Addr) : HVal → Bool
  | .ref a => decide (¬ a = r)
  | .prim _ => true

/-- No field or element of the cell refers to `r`. -/
def HObj.avoids (r : Addr) : HObj → Bool
  | .obj fl => fl.all (fun kv => kv.2.avoids r)
  | .arr es => es.all (fun v => v.avoids r)

/-- No allocated cell holds a reference to `r`. -/
def Heap.noRefTo (r : Addr) (h : Heap) : Bool :=
  h.cells.all (fun p => p.2.avoids r)

/-- The caller-cell invariant. -/
def HInv (r : Addr) (h : Heap) : Prop :=
  r < h.nxt ∧ Heap.noRefTo r h = true

instance (r : Addr) (h : Heap) : Decidable (HInv r h) := by
  unfold HInv
  infer_instance

mutual

/-- No leaf of the transform result refers to `r`. -/
def TrVal.avoids (r : Addr) : TrVal → Bool
  | .prim _ => true
  | .ref a => decide (¬ a = r)
  | .tobj fl => TrVal.avoidsFields r fl
  | .tarr es => TrVal.avoidsElems r es

def TrVal.avoidsFields (r : Addr) : List (String × TrVal) → Bool
  | [] => true
  | (_, v) :: rest => TrVal.avoids r v && TrVal.avoidsFields r rest

def TrVal.avoidsElems (r : Addr) : List TrVal → Bool
  | [] => true
  | v :: rest => TrVal.avoids r v && TrVal.avoidsElems r rest

end

mutual

/-- The schema holds no reference to `r`: every `default` value avoids `r`,
every transform callback returns a value avoiding `r` on every input, and
this holds recursively through `children` and `per_type`. -/
def HRuleSafe (r : Addr) : HRule → Prop
  | .mk _ _ _ _ _ _ tr _ ch _ _ df pt =>
      (match df with
       | some d => HVal.avoids r d = true
       | none => True) ∧
      (match tr with
       | some f => ∀ v, TrVal.avoids r (f v) = true
       | none => True) ∧
      (match ch with
       | some (es, _) => HEntriesSafe r es
       | none => True) ∧
      HEntriesSafe r pt

def HEntriesSafe (r : Addr) : List (String × HRule) → Prop
  | [] => True
  | (_, ru) :: rest => HRuleSafe r ru ∧ HEntriesSafe r rest

end

/-- `HEntriesSafe` over a whole schema level. -/
def HSchemaSafe (r : Addr) (s : HSchema) : Prop :=
  HEntriesSafe r s.1

/-- `HRuleSafe` over an optional rule. -/
def HRuleSafeO (r : Addr) : Option HRule → Prop
  | some ru => HRuleSafe r ru
  | none => True

theorem bnot_true_of_not {b : Bool} (h : ¬ b = true) : (!b) = true := by
  rw [Bool.not_eq_true] at h
  rw [h]
  rfl

theorem not_bnot_of_true {b : Bool} (h : b = true) : ¬ (!b) = true := by
  rw [h]
  intro hh
  cases hh

theorem lookup_go_mem : ∀ (l : List (Addr × HObj)) (a : Addr) (o : HObj),
    Heap.lookup.go l a = some o → (a, o) ∈ l
  | [], a, o => by intro h; cases h
  | (a', o') :: rest, a, o => by
      intro h
      rw [Heap.lookup.go] at h
      by_cases he : a' = a
      · rw [if_pos he] at h
        injection h with h
        subst he
        subst h
        exact List.mem_cons_self _ _
      · rw [if_neg he] at h
        exact List.mem_cons_of_mem _ (lookup_go_mem rest a o h)

theorem cell_avoids {r : Addr} {h : Heap} (hi : HInv r h) {a : Addr} {o : HObj}
    (hl : h.lookup a = some o) : HObj.avoids r o = true := by
  have hm := lookup_go_mem h.cells a o hl
  have h2 := hi.2
  unfold Heap.noRefTo at h2
  rw [List.all_eq_true] at h2
  exact h2 (a, o) hm

theorem lookupStr_mem {α : Type} : ∀ (l : List (String × α)) (k : String) (v : α),
    lookupStr l k = some v → (k, v) ∈ l
  | [], k, v => by intro h; cases h
  | (k', x) :: rest, k, v => by
      intro h
      rw [lookupStr] at h
      by_cases he : k' = k
      · rw [if_pos he] at h
        injection h with h
        subst he
        subst h
        exact List.mem_cons_self _ _
      · rw [if_neg he] at h
        exact List.mem_cons_of_mem _ (lookupStr_mem rest k v h)

theorem write_go_lookup : ∀ (l : List (Addr × HObj)) (b : Addr) (o : HObj) (a : Addr),
    a ≠ b → Heap.lookup.go (Heap.write.go l b o) a = Heap.lookup.go l a
  | [], _, _, _, _ => rfl
  | (a', o') :: rest, b, o, a, hne => by
      rw [Heap.write.go]
      by_cases he : a' = b
      · rw [if_pos he]
        subst he
        have hba : ¬(a' = a) := fun hh => hne (hh ▸ rfl)
        rw [Heap.lookup.go, Heap.lookup.go, if_neg hba, if_neg hba]
      · rw [if_neg he]
        rw [Heap.lookup.go, Heap.lookup.go]
        by_cases ha : a' = a
        · rw [if_pos ha, if_pos ha]
        · rw [if_neg ha, if_neg ha]
          exact write_go_lookup rest b o a hne

theorem lookup_write_ne {h : Heap} {b : Addr} {o : HObj} {a : Addr} (hne : a ≠ b) :
    (h.write b o).lookup a = h.lookup a :=
  write_go_lookup h.cells b o a hne

theorem write_go_all {r : Addr} : ∀ (l : List (Addr × HObj)) (b : Addr) (o : HObj),
    l.all (fun p => p.2.avoids r) = true → HObj.avoids r o = true →
    (Heap.write.go l b o).all (fun p => p.2.avoids r) = true
  | [], _, _, hall, _ => hall
  | (a', o') :: rest, b, o, hall, ho => by
      rw [Heap.write.go]
      rw [List.all_cons, Bool.and_eq_true] at hall
      by_cases he : a' = b
      · rw [if_pos he, List.all_cons, Bool.and_eq_true]
        exact ⟨ho, hall.2⟩
      · rw [if_neg he, List.all_cons, Bool.and_eq_true]
        exact ⟨hall.1, write_go_all rest b o hall.2 ho⟩

theorem hinv_write {r : Addr} {h : Heap} {b : Addr} {o : HObj} (hi : HInv r h)
    (ho : HObj.avoids r o = true) : HInv r (h.write b o) := by
  refine ⟨hi.1, ?_⟩
  have h2 := hi.2
  unfold Heap.noRefTo at h2 ⊢
  exact write_go_all h.cells b o h2 ho

theorem lookup_go_append_ne : ∀ (l : List (Addr × HObj)) (c : Addr) (o : HObj) (a : Addr),
    c ≠ a → Heap.lookup.go (l ++ [(c, o)]) a = Heap.lookup.go l a
  | [], c, o, a, hne => by
      simp only [List.nil_append, Heap.lookup.go, if_neg hne]
  | (a', o') :: rest, c, o, a, hne => by
      rw [List.cons_append, Heap.lookup.go, Heap.lookup.go]
      by_cases ha : a' = a
      · rw [if_pos ha, if_pos ha]
      · rw [if_neg ha, if_neg ha]
        exact lookup_go_append_ne rest c o a hne

theorem hinv_alloc {r : Addr} {h : Heap} {o : HObj} (hi : HInv r h)
    (ho : HObj.avoids r o = true) :
    HInv r (h.alloc o).1 ∧ (h.alloc o).2 ≠ r ∧
      ∀ a, a < h.nxt → (h.alloc o).1.lookup a = h.lookup a := by
  refine ⟨⟨Nat.lt_succ_of_lt hi.1, ?_⟩, Nat.ne_of_gt hi.1, ?_⟩
  · have h2 := hi.2
    unfold Heap.noRefTo at h2 ⊢
    rw [Heap.alloc, List.all_append, Bool.and_eq_true]
    refine ⟨h2, ?_⟩
    rw [List.all_cons, Bool.and_eq_true]
    exact ⟨ho, rfl⟩
  · intro a haa
    exact lookup_go_append_ne h.cells h.nxt o a (Nat.ne_of_gt haa)

mutual

theorem materializeTr_pres (r : Addr) : ∀ (v : TrVal) (h : Heap),
    TrVal.avoids r v = true → HInv r h →
    HInv r (materializeTr h v).1 ∧ (materializeTr h v).2.avoids r = true ∧
      (materializeTr h v).1.lookup r = h.lookup r
  | .prim _, _, _, hi => ⟨hi, rfl, rfl⟩
  | .ref a, _, hv, hi => ⟨hi, hv, rfl⟩
  | .tobj fields, h, hv, hi => by
      obtain ⟨f1, f2, f3⟩ := materializeTrFields_pres r fields h hv hi
      rw [materializeTr]
      dsimp only
      obtain ⟨a1, a2, a3⟩ := hinv_alloc f1
        (show HObj.avoids r (.obj (materializeTrFields h fields).2) = true from f2)
      refine ⟨a1, decide_eq_true a2, ?_⟩
      rw [a3 r f1.1, f3]
  | .tarr es, h, hv, hi => by
      obtain ⟨f1, f2, f3⟩ := materializeTrElems_pres r es h hv hi
      rw [materializeTr]
      dsimp only
      obtain ⟨a1, a2, a3⟩ := hinv_alloc f1
        (show HObj.avoids r (.arr (materializeTrElems h es).2) = true from f2)
      refine ⟨a1, decide_eq_true a2, ?_⟩
      rw [a3 r f1.1, f3]

theorem materializeTrFields_pres (r : Addr) : ∀ (fl : List (String × TrVal)) (h : Heap),
    TrVal.avoidsFields r fl = true → HInv r h →
    HInv r (materializeTrFields h fl).1 ∧
      ((materializeTrFields h fl).2.all (fun kv => kv.2.avoids r)) = true ∧
      (materializeTrFields h fl).1.lookup r = h.lookup r
  | [], _, _, hi => ⟨hi, rfl, rfl⟩
  | (k, v) :: rest, h, hv, hi => by
      rw [TrVal.avoidsFields, Bool.and_eq_true] at hv
      obtain ⟨m1, m2, m3⟩ := materializeTr_pres r v h hv.1 hi
      obtain ⟨g1, g2, g3⟩ := materializeTrFields_pres r rest (materializeTr h v).1 hv.2 m1
      rw [materializeTrFields]
      dsimp only
      refine ⟨g1, ?_, by rw [g3, m3]⟩
      rw [List.all_cons, Bool.and_eq_true]
      exact ⟨m2, g2⟩

theorem materializeTrElems_pres (r : Addr) : ∀ (es : List TrVal) (h : Heap),
    TrVal.avoidsElems r es = true → HInv r h →
    HInv r (materializeTrElems h es).1 ∧
      ((materializeTrElems h es).2.all (fun v => v.avoids r)) = true ∧
      (materializeTrElems h es).1.lookup r = h.lookup r
  | [], _, _, hi => ⟨hi, rfl, rfl⟩
  | v :: rest, h, hv, hi => by
      rw [TrVal.avoidsElems, Bool.and_eq_true] at hv
      obtain ⟨m1, m2, m3⟩ := materializeTr_pres r v h hv.1 hi
      obtain ⟨g1, g2, g3⟩ := materializeTrElems_pres r rest (materializeTr h v).1 hv.2 m1
      rw [materializeTrElems]
      dsimp only
      refine ⟨g1, ?_, by rw [g3, m3]⟩
      rw [List.all_cons, Bool.and_eq_true]
      exact ⟨m2, g2⟩

end

theorem readField_avoids {r : Addr} {h : Heap} (hi : HInv r h) (a : Addr) (k : String) :
    (readField h a k).avoids r = true := by
  unfold readField
  cases hl : h.lookup a with
  | none => rfl
  | some o =>
      cases o with
      | arr es => rfl
      | obj fl =>
          have hav := cell_avoids hi hl
          simp only [HObj.avoids] at hav
          dsimp only
          cases hk : lookupStr fl k with
          | none => rfl
          | some v =>
              have hm := lookupStr_mem fl k v hk
              rw [List.all_eq_true] at hav
              exact hav (k, v) hm

theorem readIdx_avoids {r : Addr} {h : Heap} (hi : HInv r h) (a : Addr) (i : Nat) :
    (readIdx h a i).avoids r = true := by
  unfold readIdx
  cases hl : h.lookup a with
  | none => rfl
  | some o =>
      cases o with
      | obj fl => rfl
      | arr es =>
          have hav := cell_avoids hi hl
          simp only [HObj.avoids] at hav
          dsimp only
          cases hg : es.get? i with
          | none => rfl
          | some v =>
              have hm : v ∈ es := List.get?_mem hg
              rw [List.all_eq_true] at hav
              exact hav v hm

theorem writeField_go_all {r : Addr} : ∀ (fl : List (String × HVal)) (k : String) (v : HVal),
    fl.all (fun kv => kv.2.avoids r) = true → v.avoids r = true →
    (writeField.go fl k v).all (fun kv => kv.2.avoids r) = true
  | [], k, v, _, hv => by
      rw [writeField.go, List.all_cons, Bool.and_eq_true]
      exact ⟨hv, rfl⟩
  | (k', v') :: rest, k, v, hall, hv => by
      rw [writeField.go]
      rw [List.all_cons, Bool.and_eq_true] at hall
      by_cases he : k' = k
      · rw [if_pos he, List.all_cons, Bool.and_eq_true]
        exact ⟨hv, hall.2⟩
      · rw [if_neg he, List.all_cons, Bool.and_eq_true]
        exact ⟨hall.1, writeField_go_all rest k v hall.2 hv⟩

theorem pres_writeField {r : Addr} {h : Heap} {b : Addr} (hb : b ≠ r) (k : String)
    {v : HVal} (hi : HInv r h) (hv : v.avoids r = true) :
    HInv r (writeField h b k v) ∧ (writeField h b k v).lookup r = h.lookup r := by
  unfold writeField
  cases hl : h.lookup b with
  | none => exact ⟨hi, rfl⟩
  | some o =>
      cases o with
      | arr es => exact ⟨hi, rfl⟩
      | obj fl =>
          have hav := cell_avoids hi hl
          simp only [HObj.avoids] at hav
          refine ⟨hinv_write hi (writeField_go_all fl k v hav hv), ?_⟩
          exact lookup_write_ne (fun hh => hb (hh ▸ rfl))

theorem set_all_avoids {r : Addr} : ∀ (l : List HVal) (i : Nat) (v : HVal),
    l.all (fun x => x.avoids r) = true → v.avoids r = true →
    (l.set i v).all (fun x => x.avoids r) = true
  | [], _, _, hall, _ => hall
  | x :: rest, 0, v, hall, hv => by
      rw [List.set_cons_zero, List.all_cons, Bool.and_eq_true] at *
      exact ⟨hv, hall.2⟩
  | x :: rest, i + 1, v, hall, hv => by
      rw [List.set_cons_succ]
      rw [List.all_cons, Bool.and_eq_true] at hall ⊢
      exact ⟨hall.1, set_all_avoids rest i v hall.2 hv⟩

theorem pres_writeIdx {r : Addr} {h : Heap} {b : Addr} (hb : b ≠ r) (i : Nat)
    {v : HVal} (hi : HInv r h) (hv : v.avoids r = true) :
    HInv r (writeIdx h b i v) ∧ (writeIdx h b i v).lookup r = h.lookup r := by
  unfold writeIdx
  cases hl : h.lookup b with
  | none => exact ⟨hi, rfl⟩
  | some o =>
      cases o with
      | obj fl => exact ⟨hi, rfl⟩
      | arr es =>
          have hav := cell_avoids hi hl
          simp only [HObj.avoids] at hav
          refine ⟨hinv_write hi ?_, lookup_write_ne (fun hh => hb (hh ▸ rfl))⟩
          show (es.set i v).all (fun x => x.avoids r) = true
          exact set_all_avoids es i v hav hv

theorem hruleSafe_dflt {r : Addr} {ru : HRule} (hs : HRuleSafe r ru) {d : HVal}
    (hd : ru.dflt = some d) : HVal.avoids r d = true := by
  cases ru with
  | mk i p mn mx pa sp tr ap ch t rq df pt =>
      rw [HRuleSafe.eq_def] at hs
      dsimp only at hs
      have h1 := hs.1
      have hd' : df = some d := hd
      rw [hd'] at h1
      exact h1

theorem hruleSafe_transform {r : Addr} {ru : HRule} (hs : HRuleSafe r ru)
    {f : HVal → TrVal} (ht : ru.transform = some f) :
    ∀ v, TrVal.avoids r (f v) = true := by
  cases ru with
  | mk i p mn mx pa sp tr ap ch t rq df pt =>
      rw [HRuleSafe.eq_def] at hs
      dsimp only at hs
      have h2 := hs.2.1
      have ht' : tr = some f := ht
      rw [ht'] at h2
      exact h2

theorem hruleSafe_children {r : Addr} {ru : HRule} (hs : HRuleSafe r ru)
    {c : HSchema} (hc : ru.children = some c) : HEntriesSafe r c.1 := by
  obtain ⟨es, o⟩ := c
  cases ru with
  | mk i p mn mx pa sp tr ap ch t rq df pt =>
      rw [HRuleSafe.eq_def] at hs
      dsimp only at hs
      have h3 := hs.2.2.1
      have hc' : ch = some (es, o) := hc
      rw [hc'] at h3
      exact h3

theorem hruleSafe_perType {r : Addr} {ru : HRule} (hs : HRuleSafe r ru) :
    HEntriesSafe r ru.perType := by
  cases ru with
  | mk i p mn mx pa sp tr ap ch t rq df pt =>
      rw [HRuleSafe.eq_def] at hs
      dsimp only at hs
      exact hs.2.2.2

theorem hentriesSafe_lookup {r : Addr} : ∀ (l : List (String × HRule)),
    HEntriesSafe r l → ∀ (k : String) (ru : HRule),
    lookupStr l k = some ru → HRuleSafe r ru
  | [], _, k, ru, h => by cases h
  | (k', v) :: rest, hs, k, ru, h => by
      rw [lookupStr] at h
      by_cases he : k' = k
      · rw [if_pos he] at h
        injection h with h
        subst h
        exact hs.1
      · rw [if_neg he] at h
        exact hentriesSafe_lookup rest hs.2 k ru h

theorem hentriesSafe_lookupO {r : Addr} {l : List (String × HRule)}
    (hs : HEntriesSafe r l) (k : String) : HRuleSafeO r (lookupStr l k) := by
  cases hl : lookupStr l k with
  | none => exact True.intro
  | some ru => exact hentriesSafe_lookup l hs k ru hl

theorem safe_effChildren {r : Addr} {dfn : HRule} (hs : HRuleSafe r dfn) (tname : String)
    {c : HSchema} (hc : hEffAttr (lookupStr dfn.perType tname) HRule.children dfn = some c) :
    HEntriesSafe r c.1 := by
  unfold hEffAttr at hc
  cases hp : lookupStr dfn.perType tname with
  | none =>
      rw [hp] at hc
      exact hruleSafe_children hs hc
  | some p =>
      rw [hp] at hc
      dsimp only at hc
      have hps : HRuleSafe r p :=
        hentriesSafe_lookup dfn.perType (hruleSafe_perType hs) tname p hp
      cases hpc : HRule.children p with
      | some x =>
          rw [hpc] at hc
          injection hc with hc
          subst hc
          exact hruleSafe_children hps hpc
      | none =>
          rw [hpc] at hc
          exact hruleSafe_children hs hc

/-- A heap result preserves the caller cell `r`: the invariant still holds
and the binding of `r` is unchanged (both when the pass returns and when a
rules exception is thrown; exhausted fuel states nothing). -/
def PresRes {α : Type} (r : Addr) (h0 : Heap) : HRes α → Prop
  | .ok h _ => HInv r h ∧ h.lookup r = h0.lookup r
  | .rulesErr h _ => HInv r h ∧ h.lookup r = h0.lookup r
  | .fuel => True

/-- As `PresRes`, and the produced value holds no reference to `r`. -/
def PresResV (r : Addr) (h0 : Heap) : HRes (List ErrItem × HVal) → Prop
  | .ok h p => (HInv r h ∧ h.lookup r = h0.lookup r) ∧ p.2.avoids r = true
  | .rulesErr h _ => HInv r h ∧ h.lookup r = h0.lookup r
  | .fuel => True

theorem presRes_trans {α : Type} {r : Addr} {h0 h1 : Heap} {x : HRes α}
    (hx : PresRes r h1 x) (h01 : h1.lookup r = h0.lookup r) : PresRes r h0 x := by
  cases x with
  | ok h a => exact ⟨hx.1, hx.2.trans h01⟩
  | rulesErr h i => exact ⟨hx.1, hx.2.trans h01⟩
  | fuel => trivial

theorem presResV_trans {r : Addr} {h0 h1 : Heap} {x : HRes (List ErrItem × HVal)}
    (hx : PresResV r h1 x) (h01 : h1.lookup r = h0.lookup r) : PresResV r h0 x := by
  cases x with
  | ok h p => exact ⟨⟨hx.1.1, hx.1.2.trans h01⟩, hx.2⟩
  | rulesErr h i => exact ⟨hx.1, hx.2.trans h01⟩
  | fuel => trivial

theorem presRes_bind {α β : Type} {r : Addr} {h0 : Heap} {x : HRes α}
    {f : Heap → α → HRes β} (hx : PresRes r h0 x)
    (hf : ∀ h a, HInv r h → PresRes r h (f h a)) : PresRes r h0 (HRes.bind x f) := by
  cases x with
  | ok h a => exact presRes_trans (hf h a hx.1) hx.2
  | rulesErr h i => exact hx
  | fuel => trivial

theorem presResV_bind {r : Addr} {h0 : Heap} {x : HRes (List ErrItem)}
    {f : Heap → List ErrItem → HRes (List ErrItem × HVal)} (hx : PresRes r h0 x)
    (hf : ∀ h a, HInv r h → PresResV r h (f h a)) : PresResV r h0 (HRes.bind x f) := by
  cases x with
  | ok h a => exact presResV_trans (hf h a hx.1) hx.2
  | rulesErr h i => exact hx
  | fuel => trivial

theorem presRes_bind_v {r : Addr} {h0 : Heap} {x : HRes (List ErrItem × HVal)}
    {f : Heap → List ErrItem × HVal → HRes (List ErrItem)} (hx : PresResV r h0 x)
    (hf : ∀ h p, HInv r h → HVal.avoids r p.2 = true → PresRes r h (f h p)) :
    PresRes r h0 (HRes.bind x f) := by
  cases x with
  | ok h p => exact presRes_trans (hf h p hx.1.1 hx.2) hx.1.2
  | rulesErr h i => exact hx
  | fuel => trivial

theorem presRes_liftV {α : Type} {r : Addr} {h : Heap} (hi : HInv r h) (x : VRes α) :
    PresRes r h (liftV h x) := by
  cases x with
  | ok a => exact ⟨hi, rfl⟩
  | rulesErr i => exact ⟨hi, rfl⟩
  | dataErr i => exact ⟨hi, rfl⟩
  | fuel => trivial

/-- The caller-cell discipline of a child processor: on a schema avoiding
`r`, a heap satisfying the invariant and a target cell other than `r`, the
result preserves `r`. -/
def PresPC (r : Addr) (pc : HSchema → Heap → Addr → String → HRes (List ErrItem)) : Prop :=
  ∀ s h a p, HSchemaSafe r s → HInv r h → a ≠ r → PresRes r h (pc s h a p)

theorem pres_happlyRuleChecks {r : Addr}
    {pc : HSchema → Heap → Addr → String → HRes (List ErrItem)} (hpc : PresPC r pc)
    {dfn : HRule} (hs : HRuleSafe r dfn) {h : Heap} (hi : HInv r h) {value : HVal}
    (hv : value.avoids r = true) (t : VT) (k : String) :
    PresResV r h (happlyRuleChecks pc dfn h value t k) := by
  unfold happlyRuleChecks
  dsimp only
  by_cases h0 : value = .prim .pnull
  · rw [if_pos h0]
    exact ⟨⟨hi, rfl⟩, hv⟩
  · rw [if_neg h0]
    apply presResV_bind (presRes_liftV hi _)
    intro h1 e1 hi1
    apply presResV_bind (presRes_liftV hi1 _)
    intro h2 e2 hi2
    apply presResV_bind (presRes_liftV hi2 _)
    intro h3 e3 hi3
    apply presResV_bind
    · show PresRes r h3 _
      cases hch : hEffAttr (lookupStr dfn.perType (vtName t)) HRule.children dfn with
      | none => exact ⟨hi3, rfl⟩
      | some c =>
          dsimp only
          by_cases hoa : t = VT.object ∨ t = VT.array
          · rw [if_pos hoa]
            cases value with
            | prim p => exact ⟨hi3, rfl⟩
            | ref a =>
                have ha : a ≠ r := of_decide_eq_true hv
                exact hpc c h3 a (k ++ ".") (safe_effChildren hs (vtName t) hch) hi3 ha
          · rw [if_neg hoa]
            by_cases hth : childrenThrowCond dfn.type = true
            · rw [if_pos hth]
              exact ⟨hi3, rfl⟩
            · rw [if_neg hth]
              exact ⟨hi3, rfl⟩
    · intro h4 e4 hi4
      exact ⟨⟨hi4, rfl⟩, hv⟩

theorem pres_happlyRule_post {r : Addr}
    {pc : HSchema → Heap → Addr → String → HRes (List ErrItem)} (hpc : PresPC r pc)
    {dfn : HRule} (hs : HRuleSafe r dfn) {h : Heap} (hi : HInv r h) {value : HVal}
    (hv : value.avoids r = true) (k : String) :
    PresResV r h
      (match hGetValueType h value with
       | none =>
           match typeConstraint dfn.type with
           | some ts =>
               .ok h ([⟨k, .TYPE_MISMATCH,
                 [("expected", .jstr (joinOr ts)), ("actual", .jstr "NaN/Infinity")]⟩], value)
           | none => .ok h ([], value)
       | some valueType =>
           match typeConstraint dfn.type with
           | some ts =>
               if !(ts.contains (vtName valueType)) then
                 .ok h ([⟨k, .TYPE_MISMATCH,
                   [("expected", .jstr (joinOr ts)), ("actual", .jstr (vtName valueType))]⟩],
                   value)
               else happlyRuleChecks pc dfn h value valueType k
           | none => happlyRuleChecks pc dfn h value valueType k) := by
  cases hGetValueType h value with
  | none =>
      cases typeConstraint dfn.type with
      | some ts => exact ⟨⟨hi, rfl⟩, hv⟩
      | none => exact ⟨⟨hi, rfl⟩, hv⟩
  | some valueType =>
      cases typeConstraint dfn.type with
      | some ts =>
          dsimp only
          by_cases hc : ts.contains (vtName valueType) = true
          · rw [if_neg (not_bnot_of_true hc)]
            exact pres_happlyRuleChecks hpc hs hi hv valueType k
          · rw [if_pos (bnot_true_of_not hc)]
            exact ⟨⟨hi, rfl⟩, hv⟩
      | none => exact pres_happlyRuleChecks hpc hs hi hv valueType k

theorem pres_happlyRule {r : Addr}
    {pc : HSchema → Heap → Addr → String → HRes (List ErrItem)} (hpc : PresPC r pc)
    {dfn : HRule} (hs : HRuleSafe r dfn) {h0 : Heap} (hi : HInv r h0) {ov : HVal}
    (hov : ov.avoids r = true) (k : String) :
    PresResV r h0 (happlyRule pc dfn h0 ov k) := by
  unfold happlyRule
  dsimp only
  cases htr : dfn.transform with
  | none =>
      dsimp only
      exact pres_happlyRule_post hpc hs hi hov k
  | some f =>
      dsimp only
      obtain ⟨m1, m2, m3⟩ :=
        materializeTr_pres r (f ov) h0 (hruleSafe_transform hs htr ov) hi
      exact presResV_trans (pres_happlyRule_post hpc hs m1 m2 k) m3

theorem pres_hWildApply {r : Addr}
    {pc : HSchema → Heap → Addr → String → HRes (List ErrItem)} (hpc : PresPC r pc)
    {hr sr : Option HRule} (hhr : HRuleSafeO r hr) (hsr : HRuleSafeO r sr)
    (pfx k : String) {h : Heap} (hi : HInv r h) {v : HVal}
    (hv : v.avoids r = true) {wb : Heap → HVal → Heap}
    (hwb : ∀ h1 v1, HInv r h1 → HVal.avoids r v1 = true →
      HInv r (wb h1 v1) ∧ (wb h1 v1).lookup r = h1.lookup r) :
    PresRes r h (hWildApply pc hr sr pfx k h v wb) := by
  unfold hWildApply
  apply presRes_bind
  · show PresRes r h _
    cases hr with
    | none => exact ⟨hi, rfl⟩
    | some hrr =>
        apply presRes_bind_v (pres_happlyRule hpc hhr hi
          (show HVal.avoids r (HVal.prim (.pstr k)) = true from rfl) (pfx ++ k ++ "#key"))
        intro h1 p hi1 _
        exact ⟨hi1, rfl⟩
  · intro h1 hErrs hi1
    cases sr with
    | none => exact ⟨hi1, rfl⟩
    | some srr =>
        apply presRes_bind_v (pres_happlyRule hpc hsr hi1 hv (pfx ++ k))
        intro h2 p hi2 hp2
        dsimp only
        by_cases hat : srr.applyTransformed = some true
        · rw [if_pos hat]
          obtain ⟨hw1, hw2⟩ := hwb h2 p.2 hi2 hp2
          exact ⟨hw1, hw2⟩
        · rw [if_neg hat]
          exact ⟨hi2, rfl⟩

theorem pres_hWildLoopObj {r : Addr}
    {pc : HSchema → Heap → Addr → String → HRes (List ErrItem)} (hpc : PresPC r pc)
    {hr sr : Option HRule} (hhr : HRuleSafeO r hr) (hsr : HRuleSafeO r sr)
    (pfx : String) {a : Addr} (ha : a ≠ r) :
    ∀ (ks : List String) (h : Heap), HInv r h →
      PresRes r h (hWildLoopObj pc hr sr pfx a h ks)
  | [], _, hi => ⟨hi, rfl⟩
  | k :: rest, h, hi => by
      rw [hWildLoopObj]
      by_cases hs : isSafeKey k = true
      · rw [if_neg (not_bnot_of_true hs)]
        apply presRes_bind
        · exact pres_hWildApply hpc hhr hsr pfx k hi (readField_avoids hi a k)
            (fun h1 v1 hi1 hv1 => pres_writeField ha k hi1 hv1)
        · intro h1 errs hi1
          apply presRes_bind (pres_hWildLoopObj hpc hhr hsr pfx ha rest h1 hi1)
          intro h2 errs2 hi2
          exact ⟨hi2, rfl⟩
      · rw [if_pos (bnot_true_of_not hs)]
        exact pres_hWildLoopObj hpc hhr hsr pfx ha rest h hi

theorem pres_hWildLoopArr {r : Addr}
    {pc : HSchema → Heap → Addr → String → HRes (List ErrItem)} (hpc : PresPC r pc)
    {hr sr : Option HRule} (hhr : HRuleSafeO r hr) (hsr : HRuleSafeO r sr)
    (pfx : String) {a : Addr} (ha : a ≠ r) :
    ∀ (m i : Nat) (h : Heap), HInv r h →
      PresRes r h (hWildLoopArr pc hr sr pfx a h i m)
  | 0, _, _, hi => ⟨hi, rfl⟩
  | m + 1, i, h, hi => by
      rw [hWildLoopArr]
      apply presRes_bind
      · exact pres_hWildApply hpc hhr hsr pfx (toString i) hi (readIdx_avoids hi a i)
          (fun h1 v1 hi1 hv1 => pres_writeIdx ha i hi1 hv1)
      · intro h1 errs hi1
        apply presRes_bind (pres_hWildLoopArr hpc hhr hsr pfx ha m (i + 1) h1 hi1)
        intro h2 errs2 hi2
        exact ⟨hi2, rfl⟩

theorem pres_hProcessWildcards {r : Addr}
    {pc : HSchema → Heap → Addr → String → HRes (List ErrItem)} (hpc : PresPC r pc)
    (rules : HSchema) (hrs : HSchemaSafe r rules) {h : Heap} {a : Addr} (hi : HInv r h)
    (ha : a ≠ r) (pfx : String) :
    PresRes r h (hProcessWildcards pc rules h a pfx) := by
  unfold hProcessWildcards
  dsimp only
  split
  · exact ⟨hi, rfl⟩
  · cases hl : h.lookup a with
    | none => exact ⟨hi, rfl⟩
    | some o =>
        cases o with
        | obj fl =>
            exact pres_hWildLoopObj hpc (hentriesSafe_lookupO hrs "#")
              (hentriesSafe_lookupO hrs "*") pfx ha (fl.map Prod.fst) h hi
        | arr es =>
            exact pres_hWildLoopArr hpc (hentriesSafe_lookupO hrs "#")
              (hentriesSafe_lookupO hrs "*") pfx ha es.length 0 h hi

theorem pres_hNamedLoop {r : Addr}
    {pc : HSchema → Heap → Addr → String → HRes (List ErrItem)} (hpc : PresPC r pc)
    (pfx : String) {a : Addr} (ha : a ≠ r) :
    ∀ (entries : List (String × HRule)) (h : Heap), HEntriesSafe r entries →
      HInv r h → PresRes r h (hNamedLoop pc pfx a entries h)
  | [], _, _, hi => ⟨hi, rfl⟩
  | (key, rs) :: rest, h, hse, hi => by
      rw [hNamedLoop]
      by_cases hk : key = "@" ∨ key = "#" ∨ key = "*"
      · rw [if_pos hk]
        exact pres_hNamedLoop hpc pfx ha rest h hse.2 hi
      · rw [if_neg hk]
        by_cases hsafe : isSafeKey key = true
        · rw [if_neg (not_bnot_of_true hsafe)]
          dsimp only
          generalize hX : (match rs.dflt with
            | some d =>
                if !(hHasOwn h a key) then writeField h a key d
                else h
            | none => h) = h1g
          have hg : HInv r h1g ∧ h1g.lookup r = h.lookup r := by
            rw [← hX]
            cases hdf : rs.dflt with
            | none => exact ⟨hi, rfl⟩
            | some d =>
                dsimp only
                by_cases hown : hHasOwn h a key = true
                · rw [if_neg (not_bnot_of_true hown)]
                  exact ⟨hi, rfl⟩
                · rw [if_pos (bnot_true_of_not hown)]
                  exact pres_writeField ha key hi (hruleSafe_dflt hse.1 hdf)
          refine presRes_trans ?_ hg.2
          by_cases hown1 : hHasOwn h1g a key = true
          · rw [if_pos hown1]
            apply presRes_bind_v
              (pres_happlyRule hpc hse.1 hg.1 (readField_avoids hg.1 a key) (pfx ++ key))
            intro h2 p hi2 hp2
            dsimp only
            by_cases hat : rs.applyTransformed = some true
            · rw [if_pos hat]
              obtain ⟨w1, w2⟩ := pres_writeField ha key hi2 hp2
              refine presRes_trans ?_ w2
              apply presRes_bind (pres_hNamedLoop hpc pfx ha rest _ hse.2 w1)
              intro h4 e2 hi4
              exact ⟨hi4, rfl⟩
            · rw [if_neg hat]
              apply presRes_bind (pres_hNamedLoop hpc pfx ha rest h2 hse.2 hi2)
              intro h4 e2 hi4
              exact ⟨hi4, rfl⟩
          · rw [if_neg hown1]
            by_cases hreq : rs.required = some true
            · rw [if_pos hreq]
              apply presRes_bind (pres_hNamedLoop hpc pfx ha rest h1g hse.2 hg.1)
              intro h2 e2 hi2
              exact ⟨hi2, rfl⟩
            · rw [if_neg hreq]
              exact pres_hNamedLoop hpc pfx ha rest h1g hse.2 hg.1
        · rw [if_pos (bnot_true_of_not hsafe)]
          exact pres_hNamedLoop hpc pfx ha rest h hse.2 hi

theorem pres_hProcessRules (r : Addr) : ∀ (n : Nat) (sm : Bool) (rules : HSchema)
    (h : Heap) (a : Addr) (pfx : String), HSchemaSafe r rules → HInv r h → a ≠ r →
    PresRes r h (hProcessRules n sm rules h a pfx)
  | 0, _, _, _, _, _, _, _, _ => True.intro
  | n + 1, sm, rules, h, a, pfx, hrs, hi, ha => by
      rw [hProcessRules]
      dsimp only
      have hpc : PresPC r (fun s h1 a1 p => hProcessRules n sm s h1 a1 p) :=
        fun s h1 a1 p hs1 hi1 ha1 => pres_hProcessRules r n sm s h1 a1 p hs1 hi1 ha1
      apply presRes_bind (pres_hProcessWildcards hpc rules hrs hi ha pfx)
      intro h1 e1 hi1
      cases hl : h1.lookup a with
      | none =>
          apply presRes_bind (pres_hNamedLoop hpc pfx ha rules.1 h1 hrs hi1)
          intro h2 e3 hi2
          exact ⟨hi2, rfl⟩
      | some o =>
          cases o with
          | arr es => exact ⟨hi1, rfl⟩
          | obj fl =>
              apply presRes_bind (pres_hNamedLoop hpc pfx ha rules.1 h1 hrs hi1)
              intro h2 e3 hi2
              exact ⟨hi2, rfl⟩

theorem pres_hValidate {r : Addr} (fuel : Nat) (rules : HSchema) (sm : Bool)
    (hrs : HSchemaSafe r rules) {h : Heap} (hi : HInv r h) (a : Addr) (pfx : String) :
    PresRes r h (hValidate fuel rules sm h a pfx) := by
  unfold hValidate hShallowClone
  dsimp only
  cases hl : h.lookup a with
  | some o =>
      obtain ⟨a1, a2, a3⟩ := hinv_alloc hi (cell_avoids hi hl)
      refine presRes_trans ?_ (a3 r hi.1)
      apply presRes_bind (pres_hProcessRules r fuel sm rules _ _ pfx hrs a1 a2)
      intro h1 errs hi1
      exact ⟨hi1, rfl⟩
  | none =>
      obtain ⟨a1, a2, a3⟩ := hinv_alloc hi
        (show HObj.avoids r (HObj.obj []) = true from rfl)
      refine presRes_trans ?_ (a3 r hi.1)
      apply presRes_bind (pres_hProcessRules r fuel sm rules _ _ pfx hrs a1 a2)
      intro h1 errs hi1
      exact ⟨hi1, rfl⟩

/-- The nested-mutation heap and schema: the caller's object (cell 0) holds
a nested empty object (cell 1); the schema declares `a` as an object with a
child `b` carrying a `default`. -/
def cxHeap : Heap := ⟨2, [(0, .obj [("a", .ref 1)]), (1, .obj [])]⟩

def cxSchema : HSchema :=
  ([("a", (HRule.empty.withType (.many ["object"])).withChildren
      ([("b", HRule.empty.withDefault (.prim (.pnum (.fin 1))))], none))], none)

/-- The heap after validating `cxHeap` against `cxSchema`: the working copy
is cell 2, and the nested cell 1 — shared with the caller — gained the
defaulted field `b`. -/
def cxHeapAfter : Heap :=
  ⟨3, [(0, .obj [("a", .ref 1)]),
       (1, .obj [("b", .prim (.pnum (.fin 1)))]),
       (2, .obj [("a", .ref 1)])]⟩

/-- The schema-mutation heap and schema: cell 0 is the caller's empty input
object, cell 1 is the object the caller's schema passed as `default` for
`a` (`deepCloneRuleDef`'s spread keeps it shared); `a`'s children default
`b` to 5. -/
def sxHeap : Heap := ⟨2, [(0, .obj []), (1, .obj [])]⟩

def sxSchema : HSchema :=
  ([("a", ((HRule.empty.withType (.many ["object"])).withDefault (.ref 1)).withChildren
      ([("b", HRule.empty.withDefault (.prim (.pnum (.fin 5))))], none))], none)

/-- The heap after validating `sxHeap` against `sxSchema`: the default
insertion `data.a = ruleSchema.default` stored the shared reference, and
the children recursion wrote `b: 5` into cell 1 — the schema's own
`default` object, so the schema no longer serializes as before. -/
def sxHeapAfter : Heap :=
  ⟨3, [(0, .obj []),
       (1, .obj [("b", .prim (.pnum (.fin 5)))]),
       (2, .obj [("a", .ref 1)])]⟩

/-- The transform heap and schema: the caller's input is cell 0 and no heap
cell references it, but `a`'s transform callback returns the caller's
object itself (`.ref 0`), so the children recursion descends into cell 0
and defaults `b` there. -/
def txHeap : Heap := ⟨1, [(0, .obj [("a", .prim (.pnum (.fin 5)))])]⟩

def txSchema : HSchema :=
  ([("a", ((HRule.empty.withType (.many ["object"])).withTransform
      (fun _ => .ref 0)).withChildren
      ([("b", HRule.empty.withDefault (.prim (.pnum (.fin 1))))], none))], none)

/-- The heap after validating `txHeap` against `txSchema`: the caller's own
cell 0 gained the defaulted field `b`. -/
def txHeapAfter : Heap :=
  ⟨2, [(0, .obj [("a", .prim (.pnum (.fin 5))), ("b", .prim (.pnum (.fin 1)))]),
       (1, .obj [("a", .prim (.pnum (.fin 5)))])]⟩

/-- The heap after validating `cxHeap` against the empty schema. -/
def wHeapAfter : Heap :=
  ⟨3, [(0, .obj [("a", .ref 1)]), (1, .obj []), (2, .obj [("a", .ref 1)])]⟩

end HM

/-- C1 (amended): a validation call works on a shallow copy of the input
cell, so the caller's own binding is preserved: whenever the caller's cell
`a` is not referenced from any heap cell and the schema holds no reference
to it either (no `default` value refers to `a` and no transform callback
can return a value referring to `a`), both a normal return and a thrown
rules exception leave the heap binding of `a` exactly as it was — every
default insertion and write-back hits the engine's working copy or cells
distinct from the caller's. (Nested cells shared through the shallow copy,
and the schema's own shared `default` objects, are by contrast mutated in
place, and a transform returning the caller's object defeats even the
top-level preservation: see the counterexample.) -/
theorem hm_validate_preserves_caller_input :
    ∀ (fuel : Nat) (rules : HM.HSchema) (sm : Bool) (h : HM.Heap) (a : HM.Addr)
      (pfx : String), HM.HSchemaSafe a rules → HM.HInv a h →
      (∀ h1 res, HM.hValidate fuel rules sm h a pfx = .ok h1 res →
        h1.lookup a = h.lookup a) ∧
      (∀ h1 info, HM.hValidate fuel rules sm h a pfx = .rulesErr h1 info →
        h1.lookup a = h.lookup a) := by
  intro fuel rules sm h a pfx hrs hi
  have hp := HM.pres_hValidate fuel rules sm hrs hi a pfx
  constructor
  · intro h1 res he
    rw [he] at hp
    exact hp.2
  · intro h1 info he
    rw [he] at hp
    exact hp.2

/-- C1 witness: validating the concrete two-cell heap against the empty
schema preserves the caller's binding at cell 0. -/
theorem hm_validate_preserves_caller_input_witness :
    HM.HSchemaSafe 0 ([], none) ∧ HM.HInv 0 HM.cxHeap ∧
      HM.wHeapAfter.lookup 0 = HM.cxHeap.lookup 0 := by
  refine ⟨True.intro, by decide, ?_⟩
  exact (hm_validate_preserves_caller_input 5 ([], none) false HM.cxHeap 0 ""
    True.intro (by decide)).1 HM.wHeapAfter ([], 2) (by rfl)

/-- C1 counterexample to the frozen claim, which says a validation call
never mutates the schema or the input at any depth. Three concrete runs
refute it: (i) the shallow copy `{...input}` shares nested cells, and a
nested `default` is written into such a shared cell in place — after
validating `cxHeap` (cell 0 = `{a: {}}`) against a schema defaulting
`a.b`, the caller's nested cell 1 has gained the field `b`; (ii) the
schema itself is mutated: `deepCloneRuleDef` is a spread `{...def}` that
does not clone `default`, and `data[key] = ruleSchema.default` inserts
that shared object by reference, so validating the empty input `sxHeap`
against `sxSchema` writes `b: 5` into the schema's own `default` object
(cell 1) and the schema no longer serializes identically; (iii) a
transform callback returning the caller's input object (`.ref 0`) makes
the children recursion default `b` into the caller's own cell 0, mutating
even the input's top level. -/
theorem hm_validate_mutates_nested_input_cx :
    (HM.HInv 0 HM.cxHeap ∧ HM.cxHeap.lookup 1 = some (.obj []) ∧
      HM.hValidate 5 HM.cxSchema false HM.cxHeap 0 "" = .ok HM.cxHeapAfter ([], 2) ∧
      HM.cxHeapAfter.lookup 1 ≠ HM.cxHeap.lookup 1) ∧
    (HM.sxHeap.lookup 1 = some (.obj []) ∧
      HM.hValidate 5 HM.sxSchema false HM.sxHeap 0 "" = .ok HM.sxHeapAfter ([], 2) ∧
      HM.sxHeapAfter.lookup 1 ≠ HM.sxHeap.lookup 1) ∧
    (HM.HInv 0 HM.txHeap ∧
      HM.hValidate 5 HM.txSchema false HM.txHeap 0 "" = .ok HM.txHeapAfter ([], 1) ∧
      HM.txHeapAfter.lookup 0 ≠ HM.txHeap.lookup 0) := by
  refine ⟨⟨by decide, by decide, by rfl, by decide⟩,
    ⟨by decide, by rfl, by decide⟩,
    ⟨by decide, by rfl, by decide⟩⟩

end ODV
